import Mathlib

/-!
Verification of the flint repository's statement classifier, unit model
builder, and build-graph resolver (makemake) against its specification.

Statements (logical source lines) are modelled as lists of case-folded
token comparison strings, matching the lexer contract: tokens compare by
their case-folded text.
-/

set_option maxHeartbeats 1000000

/-- `s.startswith(p)` on Python strings: `p` is a prefix of `s`.  (Stated
over the character lists so that concrete instances evaluate by `decide`.) -/
def strTakes (s p : String) : Bool := List.isPrefixOf p.data s.data

/-- Modelled from the spec: `flint/variable.py` is not under src/.  The spec
(§3, §4.2, glossary) speaks of "an intrinsic-type keyword"; the sibling
implementation at src/flint/unit.py:15-22 enumerates these keywords, and we
take the same list for the missing `Variable.intrinsic_types`. -/
def Variable.intrinsic_types : List String :=
  ["integer", "real", "double", "complex", "character", "logical"]

namespace Flint

namespace Unit

/-- src/flint/unit.py:5-12 (`Unit.unit_types`): no `type` entry. -/
def unit_types : List String :=
  ["program", "function", "subroutine", "module", "submodule", "block"]

/-- src/flint/unit.py:15-22 (`Unit.intrinsic_types`). -/
def intrinsic_types : List String :=
  ["integer", "real", "double", "complex", "character", "logical"]

/-- src/flint/unit.py:54-60 (`Unit.unit_prefix`). -/
def unit_prefix : List String :=
  intrinsic_types ++ ["elemental", "impure", "non_recursive", "pure", "recursive"]

end Unit

end Flint

namespace Units

namespace Unit

/-- src/flint/units/unit.py:12-22 (`Unit.unit_types`), including `type`. -/
def unit_types : List String :=
  ["program", "function", "subroutine", "module", "submodule", "block", "type"]

/-- src/flint/units/unit.py:25-28 (`Unit.access_specs`). -/
def access_specs : List String := ["public", "private"]

/-- src/flint/units/unit.py:65-71 (`Unit.unit_prefix`), built on the
missing `Variable.intrinsic_types`. -/
def unit_prefix : List String :=
  Variable.intrinsic_types ++ ["elemental", "impure", "non_recursive", "pure", "recursive"]

end Unit

end Units

/-- The index split used by both `Unit.statement` implementations:
`idx = next((i for i, w in enumerate(line) if w in unit_types), -1)`;
`none` models `idx == -1` and `some pre` returns `line[:idx]` for the
first index whose token is a unit-kind keyword. -/
def unit_idx_split (uts : List String) : List String → Option (List String)
  | [] => none
  | w :: ws =>
    if uts.contains w then some [] else Option.map (fun l => w :: l) (unit_idx_split uts ws)

/-- The unguarded skip `while word != ')': word = next(words)` appearing in
`Unit.statement` (src/flint/units/unit.py:115-116, src/flint/unit.py:84-85)
and in the entity-list skip of `parse_declaration_construct`
(src/flint/units/unit.py:372-374): consume tokens up to and including the
first `)`, returning the remainder; `none` models `StopIteration` (the
token stream runs out before any `)`). -/
def skipToClose : List String → Option (List String)
  | [] => none
  | w :: ws => if w == ")" then some ws else skipToClose ws

theorem skipToClose_length {l r : List String} (h : skipToClose l = some r) :
    r.length < l.length := by
  induction l with
  | nil => simp [skipToClose] at h
  | cons w ws ih =>
    by_cases hw : w == ")"
    · simp [skipToClose, hw] at h
      subst h
      simp
    · simp [skipToClose, hw] at h
      exact Nat.lt_trans (ih h) (by simp)

/-- Position of the prefix-scanning loop of `Unit.statement` between token
reads: `word` is the word just consumed by `word = next(words)` and about to
be classified at the top of the loop (`word`), or the word following an
intrinsic-type keyword, which the loop consumes without classifying it
unless it is `(` (`afterIntr`), or a word inside the
`while word != ')'` skip (`paren`). -/
inductive ScanMode where
  | word
  | afterIntr
  | paren
deriving DecidableEq

/-- The prefix-scanning loop of `Unit.statement`
(src/flint/units/unit.py:106-123 and src/flint/unit.py:75-92), shared by
both implementations and parameterised by the intrinsic-type list `intr`
and the unit-prefix list `upre` that the two files reference, expressed as
a token automaton: every `StopIteration` exit of the Python loop (`break`
followed by `return True`) is the `[]` case. -/
def prefix_scan_go (intr upre : List String) : ScanMode → List String → Bool
  | _, [] => true
  | .word, w :: rest =>
    if intr.contains w then prefix_scan_go intr upre .afterIntr rest
    else if upre.contains w then prefix_scan_go intr upre .word rest
    else false
  | .afterIntr, w2 :: rest2 =>
    if w2 == "(" then prefix_scan_go intr upre .paren rest2
    else prefix_scan_go intr upre .word rest2
  | .paren, t :: ts =>
    if t == ")" then prefix_scan_go intr upre .word ts
    else prefix_scan_go intr upre .paren ts

/-- The prefix scan entered with `word = next(words)` at the top of the loop. -/
def prefix_scan (intr upre : List String) (pre : List String) : Bool :=
  prefix_scan_go intr upre .word pre

namespace Units

namespace Unit

/-- `Unit.statement` of src/flint/units/unit.py:97-126: find the first
unit-kind keyword; at index 0 the line opens a unit; at a later index the
preceding tokens are scanned by the prefix loop; with no keyword the line
does not open a unit. -/
def statement (line : List String) : Bool :=
  match unit_idx_split unit_types line with
  | none => false
  | some [] => true
  | some (w :: pre) => prefix_scan Variable.intrinsic_types unit_prefix (w :: pre)

/-- `Unit.end_statement` of src/flint/units/unit.py:130-140 (identical in
src/flint/unit.py:97-107); `utype` is the unit's kind.  `strTakes s p`
models `s.startswith(p)`.  A fall-through (`line[0]` not starting with
`end`) returns Python `None`, modelled as `false` since callers use the
value as a boolean. -/
def end_statement (utype : String) (line : List String) : Bool :=
  match line with
  | [] => false
  | w :: rest =>
    if strTakes w ("end") then
      match rest with
      | [] => w == "end" || w == "end" ++ utype
      | w2 :: _ => w == "end" && w2 == utype
    else false

end Unit

end Units

namespace Flint

namespace Unit

/-- `Unit.statement` of src/flint/unit.py:66-95: same loop as the other
implementation, but over this file's `unit_types` (no `type`) and its own
`intrinsic_types`. -/
def statement (line : List String) : Bool :=
  match unit_idx_split unit_types line with
  | none => false
  | some [] => true
  | some (w :: pre) => prefix_scan intrinsic_types unit_prefix (w :: pre)

end Unit

end Flint

/-! ## Claim C3: which lines close a unit -/

/-- Modelled from the claim's words (C3): a line closes a unit of kind
`utype` exactly when it is `end`, `end utype`, or the fused `endutype`, in
each case with an optional trailing name token that need not match the
unit's actual name. -/
def closes_unit_claim (utype : String) (line : List String) : Bool :=
  match line with
  | [w] => w == "end" || w == "end" ++ utype
  | [w, x] => (w == "end" || w == "end" ++ utype) || (w == "end" && x == utype)
  | [w, k, _] => w == "end" && k == utype
  | _ => false

/-- A prefix test used throughout: `p ++ x` starts with `p`. -/
theorem strTakes_append (p x : String) : strTakes (p ++ x) p = true := by
  unfold strTakes
  rw [String.data_append]
  exact List.isPrefixOf_iff_prefix.mpr (List.prefix_append p.data x.data)

/-- The bare string starts with itself. -/
theorem strTakes_refl (p : String) : strTakes p p = true := by
  unfold strTakes
  exact List.isPrefixOf_iff_prefix.mpr (List.prefix_refl p.data)

/-- C3 counterexample: the claim admits an optional trailing name after all
three end-spellings, but `end foo` (bare `end` followed by a name) does not
close a `module` in the code: the single-token branch requires exactly one
token, and the two-token branch requires `line[1]` to equal the unit kind. -/
theorem c3_counterexample :
    Units.Unit.end_statement "module" ["end", "foo"] = false ∧
      closes_unit_claim "module" ["end", "foo"] = true := by
  refine ⟨?_, ?_⟩ <;> decide

/-- C3 amended: `end_statement utype line` is true exactly when the line is
the bare token `end`, the bare fused token `end<utype>`, or begins with the
two tokens `end` `<utype>` (any trailing tokens permitted, so a trailing
name is accepted only in this spaced spelling; it is never compared with
the unit's name).  Every other line is rejected; in particular
`end subroutine` does not close a `module`. -/
theorem c3_end_statement_characterisation (utype : String) (line : List String) :
    Units.Unit.end_statement "module" ["end", "subroutine"] = false ∧
      (Units.Unit.end_statement utype line = true ↔
        (line = ["end"] ∨ line = ["end" ++ utype] ∨ line.take 2 = ["end", utype])) := by
  refine ⟨by decide, ?_⟩
  rcases line with _ | ⟨w, _ | ⟨w2, rest⟩⟩
  · simp [Units.Unit.end_statement]
  · constructor
    · intro h
      by_cases hT : strTakes w ("end") = true
      · simp only [Units.Unit.end_statement, hT, if_true, Bool.or_eq_true, beq_iff_eq] at h
        rcases h with h | h
        · exact Or.inl (by rw [h])
        · exact Or.inr (Or.inl (by rw [h]))
      · simp [Units.Unit.end_statement, hT] at h
    · intro h
      rcases h with h | h | h
      · rw [List.cons.injEq] at h
        rw [h.1]
        simp [Units.Unit.end_statement, strTakes_refl]
      · rw [List.cons.injEq] at h
        rw [h.1]
        simp [Units.Unit.end_statement, strTakes_append]
      · simp at h
  · constructor
    · intro h
      by_cases hT : strTakes w ("end") = true
      · simp only [Units.Unit.end_statement, hT, if_true, Bool.and_eq_true, beq_iff_eq] at h
        refine Or.inr (Or.inr ?_)
        simp [h.1, h.2]
      · simp [Units.Unit.end_statement, hT] at h
    · intro h
      rcases h with h | h | h
      · simp at h
      · simp at h
      · simp only [List.take, List.cons.injEq] at h
        rw [h.1, h.2.1]
        simp [Units.Unit.end_statement, strTakes_refl]

/-! ## Claims C10 and C9: the two `Unit.statement` classifiers -/

/-- C10: any statement whose first token is a unit-kind keyword of
src/flint/units/unit.py — including `type` — is classified as opening a
unit regardless of the remaining tokens; in particular the
type-declaration statement `type ( name ) :: var` opens a unit. -/
theorem c10_statement_first_token :
    (∀ (w : String) (rest : List String), w ∈ Units.Unit.unit_types →
        Units.Unit.statement (w :: rest) = true) ∧
      Units.Unit.statement ["type", "(", "name", ")", "::", "var"] = true := by
  constructor
  · intro w rest h
    simp [Units.Unit.statement, unit_idx_split, h]
  · decide

/-- Witness for C10 at the concrete keyword `type`. -/
theorem c10_statement_first_token_witness :
    Units.Unit.statement ["type", "x"] = true :=
  c10_statement_first_token.1 "type" ["x"] (by decide)

/-- The two hard-coded unit-keyword lists agree on every keyword except
`type`, which only src/flint/units/unit.py includes. -/
theorem unit_types_contains_eq {w : String} (hw : w ≠ "type") :
    Flint.Unit.unit_types.contains w = Units.Unit.unit_types.contains w := by
  have ht : (w == "type") = false := by
    simpa using hw
  simp only [Flint.Unit.unit_types, Units.Unit.unit_types, List.contains_cons,
    List.contains_nil, ht, Bool.or_false]

/-- On a `type`-free line the two implementations split identically. -/
theorem unit_idx_split_eq_of_no_type {line : List String} (h : "type" ∉ line) :
    unit_idx_split Flint.Unit.unit_types line = unit_idx_split Units.Unit.unit_types line := by
  induction line with
  | nil => rfl
  | cons w ws ih =>
    have hw : w ≠ "type" := fun hh => h (hh ▸ List.mem_cons_self w ws)
    have hws : "type" ∉ ws := fun hh => h (List.mem_cons_of_mem _ hh)
    simp only [unit_idx_split, unit_types_contains_eq hw, ih hws]

/-- C9 counterexample: the two classifiers disagree on the statement
consisting of the single token `type` (the newer implementation counts
`type` as a unit keyword, the older one does not). -/
theorem c9_counterexample :
    ¬ (Flint.Unit.statement ["type"] = Units.Unit.statement ["type"]) := by
  decide

/-- C9 amended: the two classifier implementations compute the same
predicate on every statement line containing no `type` token (their
keyword lists differ exactly by `type`, and the prefix-scanning loops are
identical once the missing `Variable.intrinsic_types` is the intrinsic
list of src/flint/unit.py). -/
theorem c9_statement_agreement (line : List String) (h : "type" ∉ line) :
    Flint.Unit.statement line = Units.Unit.statement line := by
  have hidx := unit_idx_split_eq_of_no_type h
  unfold Flint.Unit.statement Units.Unit.statement
  rw [hidx]
  rcases hs : unit_idx_split Units.Unit.unit_types line with _ | ⟨_ | ⟨w, pre⟩⟩
  · rfl
  · rfl
  · rfl

/-- Witness for C9's amended agreement at a concrete `type`-free line. -/
theorem c9_statement_agreement_witness :
    Flint.Unit.statement ["pure", "subroutine", "s"] =
      Units.Unit.statement ["pure", "subroutine", "s"] :=
  c9_statement_agreement ["pure", "subroutine", "s"] (by decide)

/-! ## Claim C4: prefixed unit-opening statements -/

/-- The five non-type prefix keywords listed after the intrinsic types in
both `unit_prefix` lists. -/
def unit_prefix_keywords : List String :=
  ["elemental", "impure", "non_recursive", "pure", "recursive"]

theorem units_unit_prefix_eq :
    Units.Unit.unit_prefix = Variable.intrinsic_types ++ unit_prefix_keywords := rfl

/-- State of the claim-side prefix grammar (C4): scanning items (`word`),
just after an intrinsic-type keyword where a parenthesized kind-selector
may start (`afterIntr`), or inside a selector at a given parenthesis
depth (`paren`). -/
inductive ClaimScanState where
  | word
  | afterIntr
  | paren (depth : Nat)
deriving DecidableEq

/-- Modelled from the claim's words (C4): "every token preceding the
keyword must form a legal prefix: an intrinsic-type keyword optionally
followed by a balanced parenthesized kind-selector, or one of elemental,
impure, pure, recursive, non_recursive".  A recognizer for that grammar:
a selector must be parenthesis-balanced and closed, and every other token
must itself be an intrinsic-type keyword or one of the five prefix
keywords. -/
def legal_prefix_claim_go : ClaimScanState → List String → Bool
  | .word, [] => true
  | .afterIntr, [] => true
  | .paren _, [] => false
  | .word, w :: rest =>
    if unit_prefix_keywords.contains w then legal_prefix_claim_go .word rest
    else if Variable.intrinsic_types.contains w then legal_prefix_claim_go .afterIntr rest
    else false
  | .afterIntr, w :: rest =>
    if w == "(" then legal_prefix_claim_go (.paren 1) rest
    else if unit_prefix_keywords.contains w then legal_prefix_claim_go .word rest
    else if Variable.intrinsic_types.contains w then legal_prefix_claim_go .afterIntr rest
    else false
  | .paren d, t :: ts =>
    if t == "(" then legal_prefix_claim_go (.paren (d + 1)) ts
    else if t == ")" then
      (if d == 1 then legal_prefix_claim_go .word ts else legal_prefix_claim_go (.paren (d - 1)) ts)
    else legal_prefix_claim_go (.paren d) ts

/-- The claim-side legal-prefix predicate over the tokens preceding the
first unit-kind keyword. -/
def legal_prefix_claim (pre : List String) : Bool :=
  legal_prefix_claim_go .word pre

/-- C4 counterexample, in both directions.  On
`real banana function f` the code classifies the line as opening a unit
although `banana` (the token after the intrinsic keyword, which the loop
consumes without examining it) is not a legal prefix token; on
`real ( kind ( 0 ) ) function f` the preceding tokens are an intrinsic
keyword followed by a balanced parenthesized kind-selector — a legal
prefix per the claim — yet the code rejects the line, because its
selector skip stops at the *first* `)` rather than the balancing one. -/
theorem c4_counterexample :
    (Units.Unit.statement ["real", "banana", "function", "f"] = true ∧
        legal_prefix_claim ["real", "banana"] = false) ∧
      (Units.Unit.statement ["real", "(", "kind", "(", "0", ")", ")", "function", "f"] = false ∧
        legal_prefix_claim ["real", "(", "kind", "(", "0", ")", ")"] = true) := by
  refine ⟨⟨?_, ?_⟩, ?_, ?_⟩ <;> decide

/-- The unguarded skip runs off the end exactly when no `)` is present. -/
theorem skipToClose_eq_none {l : List String} : skipToClose l = none ↔ ")" ∉ l := by
  induction l with
  | nil => simp [skipToClose]
  | cons w ws ih =>
    by_cases hw : w = ")"
    · subst hw
      simp [skipToClose]
    · have hb : (w == ")") = false := by simpa using hw
      simp [skipToClose, hb, ih, hw, Ne.symm hw]

/-- The unguarded skip succeeds exactly on the split at the first `)`. -/
theorem skipToClose_eq_some {l r : List String} :
    skipToClose l = some r ↔ ∃ mid, l = mid ++ ")" :: r ∧ ")" ∉ mid := by
  constructor
  · intro h
    induction l generalizing r with
    | nil => simp [skipToClose] at h
    | cons w ws ih =>
      by_cases hw : w = ")"
      · subst hw
        simp [skipToClose] at h
        exact ⟨[], by simp [h]⟩
      · have hb : (w == ")") = false := by simpa using hw
        simp only [skipToClose, hb, Bool.false_eq_true, if_false] at h
        obtain ⟨mid, hmid, hnot⟩ := ih h
        exact ⟨w :: mid, by simp [hmid], by simp [hnot, Ne.symm hw]⟩
  · rintro ⟨mid, rfl, hnot⟩
    induction mid with
    | nil => simp [skipToClose]
    | cons m ms ih =>
      have hm : m ≠ ")" := fun hh => hnot (hh ▸ List.mem_cons_self m ms)
      have hb : (m == ")") = false := by simpa using hm
      have hnot2 : ")" ∉ ms := fun hh => hnot (List.mem_cons_of_mem _ hh)
      simp only [List.cons_append, skipToClose, hb, Bool.false_eq_true, if_false]
      exact ih hnot2

/-- Inside the `while word != ')'` skip, the scan behaves as the unguarded
skip followed by a return to the top of the loop (running out of tokens
accepts). -/
theorem prefix_scan_go_paren (intr upre : List String) (ts : List String) :
    prefix_scan_go intr upre .paren ts =
      (match skipToClose ts with
        | none => true
        | some r => prefix_scan_go intr upre .word r) := by
  induction ts with
  | nil => rfl
  | cons t ts ih =>
    by_cases ht : t = ")"
    · subst ht
      simp [prefix_scan_go, skipToClose]
    · have hb : (t == ")") = false := by simpa using ht
      simp [prefix_scan_go, skipToClose, hb, ih]

/-- C4 amended, declaratively: the token sequences that the code's prefix
loop actually accepts.  A prefix is a sequence built from the five prefix
keywords and intrinsic-type keywords, where the token directly following
an intrinsic-type keyword is consumed without being examined unless it is
`(`; a `(` starts a selector skip that ends at the *first* `)` (not
balance-counted), and a selector still open when the prefix ends is
accepted. -/
inductive ScanAccepts : List String → Prop where
  | nil : ScanAccepts []
  | kw {w : String} {r : List String} (h1 : w ∈ unit_prefix_keywords)
      (h2 : w ∉ Variable.intrinsic_types) (h3 : ScanAccepts r) : ScanAccepts (w :: r)
  | intrLast {w : String} (h : w ∈ Variable.intrinsic_types) : ScanAccepts [w]
  | intrSkip {w t : String} {r : List String} (h1 : w ∈ Variable.intrinsic_types)
      (h2 : t ≠ "(") (h3 : ScanAccepts r) : ScanAccepts (w :: t :: r)
  | intrParenRunoff {w : String} {mid : List String} (h1 : w ∈ Variable.intrinsic_types)
      (h2 : ")" ∉ mid) : ScanAccepts (w :: "(" :: mid)
  | intrParenClosed {w : String} {mid r : List String} (h1 : w ∈ Variable.intrinsic_types)
      (h2 : ")" ∉ mid) (h3 : ScanAccepts r) : ScanAccepts (w :: "(" :: (mid ++ ")" :: r))

/-- The code's prefix loop accepts exactly the `ScanAccepts` grammar. -/
theorem prefix_scan_iff_accepts (pre : List String) :
    prefix_scan Variable.intrinsic_types Units.Unit.unit_prefix pre = true ↔ ScanAccepts pre := by
  suffices main : ∀ (n : Nat) (l : List String), l.length ≤ n →
      (prefix_scan_go Variable.intrinsic_types Units.Unit.unit_prefix .word l = true ↔
        ScanAccepts l) from main pre.length pre le_rfl
  intro n
  induction n with
  | zero =>
    intro l hl
    have hnil : l = [] := List.eq_nil_of_length_eq_zero (Nat.le_zero.mp hl)
    subst hnil
    exact ⟨fun _ => ScanAccepts.nil, fun _ => rfl⟩
  | succ n ih =>
    intro l hl
    match l with
    | [] => exact ⟨fun _ => ScanAccepts.nil, fun _ => rfl⟩
    | w :: rest =>
      simp only [List.length_cons, Nat.add_le_add_iff_right] at hl
      by_cases hw : w ∈ Variable.intrinsic_types
      · match rest with
        | [] =>
          refine ⟨fun _ => ScanAccepts.intrLast hw, fun _ => ?_⟩
          simp [prefix_scan_go, hw]
        | w2 :: r2 =>
          by_cases hw2 : w2 = "("
          · subst hw2
            rcases hsk : skipToClose r2 with _ | r3
            · have hnot : ")" ∉ r2 := skipToClose_eq_none.mp hsk
              refine ⟨fun _ => ScanAccepts.intrParenRunoff hw hnot, fun _ => ?_⟩
              simp [prefix_scan_go, hw, prefix_scan_go_paren, hsk]
            · have hlen : r3.length ≤ n := by
                have := skipToClose_length hsk
                simp at hl
                omega
              have hiff := ih r3 hlen
              have hLHS : prefix_scan_go Variable.intrinsic_types Units.Unit.unit_prefix
                  .word (w :: "(" :: r2) =
                  prefix_scan_go Variable.intrinsic_types Units.Unit.unit_prefix .word r3 := by
                simp [prefix_scan_go, hw, prefix_scan_go_paren, hsk]
              rw [hLHS, hiff]
              obtain ⟨mid, hmid, hnotmid⟩ := skipToClose_eq_some.mp hsk
              subst hmid
              constructor
              · intro h3
                exact ScanAccepts.intrParenClosed hw hnotmid h3
              · intro hacc
                generalize hu : mid ++ ")" :: r3 = u at hacc
                cases hacc with
                | kw h1 h2 h3 => exact absurd hw h2
                | intrSkip h1 h2 h3 => exact absurd rfl h2
                | intrParenRunoff h1 h2 =>
                  rw [← hu] at h2
                  exact absurd (by simp : (")" : String) ∈ mid ++ ")" :: r3) h2
                | intrParenClosed h1 h2 h3 =>
                  rename_i mid2 r2'
                  have hs2 : skipToClose (mid2 ++ ")" :: r2') = some r2' :=
                    skipToClose_eq_some.mpr ⟨mid2, rfl, h2⟩
                  rw [← hu] at hs2
                  have hs3 : skipToClose (mid ++ ")" :: r3) = some r3 :=
                    skipToClose_eq_some.mpr ⟨mid, rfl, hnotmid⟩
                  rw [hs3] at hs2
                  cases hs2
                  exact h3
          · have hb2 : (w2 == "(") = false := by simpa using hw2
            have hlen : r2.length ≤ n := by
              simp at hl
              omega
            have hiff := ih r2 hlen
            have hLHS : prefix_scan_go Variable.intrinsic_types Units.Unit.unit_prefix
                .word (w :: w2 :: r2) =
                prefix_scan_go Variable.intrinsic_types Units.Unit.unit_prefix .word r2 := by
              simp [prefix_scan_go, hw, hb2]
            rw [hLHS, hiff]
            constructor
            · intro h3
              exact ScanAccepts.intrSkip hw hw2 h3
            · intro hacc
              cases hacc with
              | kw h1 h2 h3 => exact absurd hw h2
              | intrSkip h1 h2 h3 => exact h3
              | intrParenRunoff h1 h2 => exact absurd rfl hw2
              | intrParenClosed h1 h2 h3 => exact absurd rfl hw2
      · by_cases hkw : w ∈ unit_prefix_keywords
        · have hupre : w ∈ Units.Unit.unit_prefix := by
            rw [units_unit_prefix_eq]
            exact List.mem_append_right _ hkw
          have hLHS : prefix_scan_go Variable.intrinsic_types Units.Unit.unit_prefix
              .word (w :: rest) =
              prefix_scan_go Variable.intrinsic_types Units.Unit.unit_prefix .word rest := by
            simp [prefix_scan_go, hw, hupre]
          rw [hLHS, ih rest hl]
          constructor
          · intro h3
            exact ScanAccepts.kw hkw hw h3
          · intro hacc
            cases hacc with
            | kw h1 h2 h3 => exact h3
            | intrLast h => exact absurd h hw
            | intrSkip h1 h2 h3 => exact absurd h1 hw
            | intrParenRunoff h1 h2 => exact absurd h1 hw
            | intrParenClosed h1 h2 h3 => exact absurd h1 hw
        · have hnupre : w ∉ Units.Unit.unit_prefix := by
            rw [units_unit_prefix_eq]
            intro hmem
            rcases List.mem_append.mp hmem with hmem | hmem
            · exact hw hmem
            · exact hkw hmem
          constructor
          · intro h
            simp [prefix_scan_go, hw, hnupre] at h
          · intro hacc
            cases hacc with
            | kw h1 h2 h3 => exact absurd h1 hkw
            | intrLast h => exact absurd h hw
            | intrSkip h1 h2 h3 => exact absurd h1 hw
            | intrParenRunoff h1 h2 => exact absurd h1 hw
            | intrParenClosed h1 h2 h3 => exact absurd h1 hw

/-- C4 amended: for a statement line whose first unit-kind keyword occurs
after the first token, the line opens a unit if and only if the preceding
tokens are accepted by the `ScanAccepts` grammar: each examined token must
be an intrinsic-type keyword or one of elemental, impure, pure, recursive,
non_recursive, but the token directly following an intrinsic-type keyword
is consumed unexamined when it is not `(`, a parenthesized selector is
skipped only to the first `)` (not balance-counted), and a selector left
unclosed at the end of the prefix is accepted. -/
theorem c4_statement_prefixed (line : List String) (w : String) (pre : List String)
    (h : unit_idx_split Units.Unit.unit_types line = some (w :: pre)) :
    Units.Unit.statement line = true ↔ ScanAccepts (w :: pre) := by
  simp only [Units.Unit.statement, h]
  exact prefix_scan_iff_accepts (w :: pre)

/-- Witness for C4's amended characterisation on `pure function f`. -/
theorem c4_statement_prefixed_witness : ScanAccepts ["pure"] :=
  (c4_statement_prefixed ["pure", "function", "f"] "pure" [] (by decide)).mp (by decide)

/-! ## The Unit Model Builder: namelist and variable-declaration parsing -/

/-- Ways a statement parse aborts in src/flint/units/unit.py: a failed
`assert`, an uncaught `next(tokens)` on an exhausted iterator
(`StopIteration`), or an out-of-range subscript like `line[1]`
(`IndexError`).  All three propagate and abort the surrounding file parse. -/
inductive PErr where
  | assertFail
  | stopIteration
  | indexError
deriving DecidableEq, Repr

/-- A declared entity as the spec's Variable record: the constructor call
`Variable(tok, vtype)` followed by `var.intent = var_intent`
(src/flint/units/unit.py:358-359).  The class itself (flint/variable.py)
is not under src/; the spec's §3 names the fields `name`, `declared_type`
and `intent` (`none` is Python `None`). -/
structure Variable where
  name : String
  declared_type : String
  intent : Option String
deriving DecidableEq, Repr

/-- Modelled from the spec: the Report class (flint/report.py) is not under
src/.  Spec §7 treats a declaration-grammar defect as recoverable — a
recorded diagnostic — so `report.error_endcomma()`
(src/flint/units/unit.py:395) records this diagnostic and returns. -/
inductive Diag where
  | endComma
deriving DecidableEq, Repr

/-- Python dict assignment `d[k] = v`: replace the value in place if the
key is present, append the pair otherwise. -/
def dictSet {α : Type} : List (String × α) → String → α → List (String × α)
  | [], k, v => [(k, v)]
  | (k0, v0) :: rest, k, v =>
    if k0 == k then (k, v) :: rest else (k0, v0) :: dictSet rest k v

namespace Units

namespace Unit

/-- Position in `parse_namelist`'s nested loops
(src/flint/units/unit.py:417-431): at the top of the outer `while tok`
loop (`group`), or inside the inner member loop for a group (`member g`). -/
inductive NmlMode where
  | group
  | member (g : String)

/-- The loops of `parse_namelist` (src/flint/units/unit.py:417-431), as a
single scanner over the remaining tokens.  The current token `tok` is
`none` when `next(tokens, None)` returned its default; Python's
`while tok` treats both `None` and the empty string as false.  The outer
loop asserts `tok == '/'`, reads the group name, asserts a second `/`, and
reads the first member token with an *unguarded* `next(tokens)`; the inner
loop appends member tokens, asserts the separator is `,` or `/` or the
end, and after a `,` reads the next member with another unguarded
`next(tokens)` — the dangling-comma case. -/
def nml_scan : NmlMode → Option String → List String →
    List (String × List String) → Except PErr (List (String × List String))
  | .group, none, _, acc => .ok acc
  | .group, some t, ts, acc =>
    if t = "" then .ok acc
    else if t ≠ "/" then .error .assertFail
    else
      match ts with
      | [] => .error .stopIteration
      | g :: ts1 =>
        match ts1 with
        | [] => .error .stopIteration
        | s :: ts2 =>
          if s ≠ "/" then .error .assertFail
          else
            match ts2 with
            | [] => .error .stopIteration
            | m :: ts3 => nml_scan (.member g) (some m) ts3 (dictSet acc g [])
  | .member _, none, _, acc => .ok acc
  | .member g, some t, ts, acc =>
    if t = "" then .ok acc
    else if t = "/" then
      -- the inner loop exits and the outer `while tok` resumes with `tok = '/'`
      match ts with
      | [] => .error .stopIteration
      | g2 :: ts1 =>
        match ts1 with
        | [] => .error .stopIteration
        | s :: ts2 =>
          if s ≠ "/" then .error .assertFail
          else
            match ts2 with
            | [] => .error .stopIteration
            | m :: ts3 => nml_scan (.member g2) (some m) ts3 (dictSet acc g2 [])
    else
      let acc1 := dictSet acc g ((List.lookup g acc).getD [] ++ [t])
      match ts with
      | [] => .ok acc1    -- tok = next(tokens, None) gives None; inner and outer loops exit
      | t2 :: ts2 =>
        if t2 = "," then
          match ts2 with
          | [] => .error .stopIteration
          | t3 :: ts3 => nml_scan (.member g) (some t3) ts3 acc1
        else if t2 = "/" then nml_scan (.member g) (some t2) ts2 acc1
        else .error .assertFail

/-- `parse_namelist` (src/flint/units/unit.py:412-434):
`assert(line[0] == 'namelist')`, then scan `iter(line[1:])`.  On success
the resulting namelist mapping (group name, ordered member list) is
returned; a failed assert or uncaught `StopIteration` aborts the parse. -/
def parse_namelist (line : List String) : Except PErr (List (String × List String)) :=
  match line with
  | [] => .error .indexError
  | w :: rest =>
    if w ≠ "namelist" then .error .assertFail
    else
      match rest with
      | [] => .error .stopIteration
      | t :: ts => nml_scan .group (some t) ts []

end Unit

end Units

/-- C2 counterexample: on a namelist statement whose member list ends with
a dangling trailing comma, `parse_namelist` does not record a diagnostic
and degrade the statement to an unhandled marker — it aborts with an
uncaught `StopIteration` (the unguarded `tok = next(tokens)` at
src/flint/units/unit.py:431), so no recovered result is produced. -/
theorem c2_counterexample :
    (Units.Unit.parse_namelist ["namelist", "/", "grp", "/", "a", ","]).isOk = false := by
  decide

/-- C2 amended: for every namelist statement of the form
`namelist / <g> / <m> ,` whose member list ends with a dangling trailing
comma, `parse_namelist` raises an uncaught `StopIteration`, aborting the
surrounding file parse; no diagnostic is recorded and the statement is not
degraded to an unhandled marker (the defect is fatal, not recoverable). -/
theorem c2_namelist_dangling_comma_aborts (g m : String) (hm1 : m ≠ "") (hm2 : m ≠ "/") :
    Units.Unit.parse_namelist ["namelist", "/", g, "/", m, ","] =
      .error PErr.stopIteration := by
  simp [Units.Unit.parse_namelist, Units.Unit.nml_scan, hm1, hm2]

/-- Witness for C2's amended statement at group `grp`, member `a`. -/
theorem c2_namelist_dangling_comma_aborts_witness :
    Units.Unit.parse_namelist ["namelist", "/", "grp", "/", "a", ","] =
      .error PErr.stopIteration :=
  c2_namelist_dangling_comma_aborts "grp" "a" (by decide) (by decide)

/-- The balanced-parenthesis skip of the `dimension` attribute
(src/flint/units/unit.py:345-351): `par_count` starts at 1 after the
asserted `(`; `while par_count > 0: tok = next(tokens)` adjusting the
count; running out of tokens raises `StopIteration`. -/
def skipBalancedE : Nat → List String → Except PErr (List String)
  | 0, ts => .ok ts
  | _ + 1, [] => .error .stopIteration
  | k + 1, t :: ts =>
    if t == "(" then skipBalancedE (k + 2) ts
    else if t == ")" then skipBalancedE k ts
    else skipBalancedE (k + 1) ts

theorem skipBalancedE_length {k : Nat} {ts r : List String}
    (h : skipBalancedE k ts = .ok r) : r.length ≤ ts.length := by
  induction ts generalizing k with
  | nil =>
    match k with
    | 0 =>
      simp [skipBalancedE] at h
      simp [h]
    | k + 1 => simp [skipBalancedE] at h
  | cons t ts ih =>
    match k with
    | 0 =>
      simp [skipBalancedE] at h
      simp [h]
    | k + 1 =>
      by_cases h1 : t == "("
      · simp only [skipBalancedE, h1, if_true] at h
        exact Nat.le_trans (ih h) (by simp)
      · by_cases h2 : t == ")"
        · simp only [skipBalancedE, h1, h2, Bool.false_eq_true, if_false, if_true] at h
          exact Nat.le_trans (ih h) (by simp)
        · simp only [skipBalancedE, h1, h2, Bool.false_eq_true, if_false] at h
          exact Nat.le_trans (ih h) (by simp)

namespace Units

namespace Unit

/-- The entity-list loop of `parse_declaration_construct`
(src/flint/units/unit.py:371-401), after the first Variable has been
appended: `for tok in tokens`, an `(` skips (unbalanced) to the first `)`
— raising `StopIteration` when absent —, a `,` reads the next entity name
and appends one Variable sharing the declared type and intent, and a `,`
at the very end of the statement is caught: `report.error_endcomma()`
records a diagnostic and the loop then appends a Variable named `,` (the
`tok` left in place) before the iterator runs out.  Doc-comment
attachment (lines 361-407) only sets `.doc` fields on tokens carrying
comment fragments and is not modelled, since lines here carry none. -/
def entityLoop (vt : String) (vi : Option String) :
    List Variable → List Diag → List String → Except PErr (List Variable × List Diag)
  | vars, diags, [] => .ok (vars, diags)
  | vars, diags, tok :: rest =>
    if tok == "(" then
      match h : skipToClose rest with
      | none => .error .stopIteration
      | some rest2 => entityLoop vt vi vars diags rest2
    else if tok == "," then
      match rest with
      | [] => .ok (vars ++ [⟨",", vt, vi⟩], diags ++ [.endComma])
      | t2 :: rest2 => entityLoop vt vi (vars ++ [⟨t2, vt, vi⟩]) diags rest2
    else entityLoop vt vi vars diags rest
termination_by _ _ ts => ts.length
decreasing_by
  · have h2 := skipToClose_length h
    simp at h2 ⊢
    omega
  · simp
    try omega
  · simp
    try omega

/-- The attribute loop of `parse_declaration_construct`
(src/flint/units/unit.py:322-356): `while tok == ','` reads an attribute
name; `intent` asserts `(`, reads the intent keyword (asserting it is
`in`, `out` or `inout`), accepts the non-contiguous `in out` spelling as
`inout`, and asserts `)`; `dimension` asserts `(` and performs a balanced
skip; any other attribute name is consumed without interpretation.  When
the loop exits, an optional `::` is skipped, the first Variable is built
from the current token (lines 355-369), and the entity loop runs. -/
def attrsLoop (vt : String) (vi : Option String) (tok : String) (ts : List String) :
    Except PErr (List Variable × List Diag) :=
  if tok == "," then
    match ts with
    | [] => .error .stopIteration
    | attr :: ts1 =>
      if attr == "intent" then
        match ts1 with
        | [] => .error .stopIteration
        | p1 :: ts2 =>
          if p1 == "(" then
            match ts2 with
            | [] => .error .stopIteration
            | iv :: ts3 =>
              if iv == "in" || iv == "out" || iv == "inout" then
                match ts3 with
                | [] => .error .stopIteration
                | t4 :: ts4 =>
                  if iv == "in" && t4 == "out" then
                    match ts4 with
                    | [] => .error .stopIteration
                    | t5 :: ts5 =>
                      if t5 == ")" then
                        match ts5 with
                        | [] => .error .stopIteration
                        | t6 :: ts6 => attrsLoop vt (some "inout") t6 ts6
                      else .error .assertFail
                  else
                    if t4 == ")" then
                      match ts4 with
                      | [] => .error .stopIteration
                      | t5 :: ts5 => attrsLoop vt (some iv) t5 ts5
                    else .error .assertFail
              else .error .assertFail
          else .error .assertFail
      else if attr == "dimension" then
        match ts1 with
        | [] => .error .stopIteration
        | p1 :: ts2 =>
          if p1 == "(" then
            match h : skipBalancedE 1 ts2 with
            | .error e => .error e
            | .ok ts3 =>
              match ts3 with
              | [] => .error .stopIteration
              | t4 :: ts4 => attrsLoop vt vi t4 ts4
          else .error .assertFail
      else
        match ts1 with
        | [] => .error .stopIteration
        | t2 :: ts2 => attrsLoop vt vi t2 ts2
  else
    if tok == "::" then
      match ts with
      | [] => .error .stopIteration
      | t2 :: ts2 => entityLoop vt vi [⟨t2, vt, vi⟩] [] ts2
    else entityLoop vt vi [⟨tok, vt, vi⟩] [] ts
termination_by ts.length
decreasing_by
  · simp
    omega
  · simp
    omega
  · have h2 := skipBalancedE_length h
    simp at h2 ⊢
    omega
  · simp
    omega

/-- Steps after the base type of a variable declaration
(src/flint/units/unit.py:305-315): read the next token; for `character` a
`*` length specifier consumes one further token; a `(` kind (or len)
selector is skipped — unbalanced, to the first `)` — before the attribute
loop starts with `var_intent = None`. -/
def afterKind (vt : String) (tok : String) (ts : List String) :
    Except PErr (List Variable × List Diag) :=
  if tok == "(" then
    match skipToClose ts with
    | none => .error .stopIteration
    | some rest2 =>
      match rest2 with
      | [] => .error .stopIteration
      | t2 :: rest3 => attrsLoop vt none t2 rest3
  else attrsLoop vt none tok ts

/-- `tok = next(tokens)` after the base type, then the `character` `*`
length handling (src/flint/units/unit.py:305-309). -/
def afterType (vt : String) (ts : List String) : Except PErr (List Variable × List Diag) :=
  match ts with
  | [] => .error .stopIteration
  | tok :: rest =>
    if vt == "character" && tok == "*" then
      match rest with
      | [] => .error .stopIteration
      | tok2 :: rest2 => afterKind vt tok2 rest2
    else afterKind vt tok rest

/-- Outcome of `parse_declaration_construct`
(src/flint/units/unit.py:243-410) on one statement.  Branches that parse
further statements from the stream (interfaces, nested derived types) are
recorded as tags, since they consume subsequent lines outside this
statement; `decl` carries the Variables appended with their shared
declared type and intent, plus recorded diagnostics. -/
inductive DeclResult where
  | interfaceBlock
  | derivedType (name : Option String)
  | accessStmt
  | dataStmt
  | paramStmt
  | namelistStmt (groups : List (String × List String))
  | unhandled
  | decl (vars : List Variable) (diags : List Diag)
deriving DecidableEq, Repr

/-- The else-branch of `parse_declaration_construct`
(src/flint/units/unit.py:277-410): an intrinsic-type keyword starts a
variable declaration; `type`/`class` assert a parenthesized type name;
`namelist` delegates to `parse_namelist`; anything else is recorded as an
unhandled statement. -/
def decl_else (t : String) (rest : List String) : Except PErr DeclResult :=
  if Variable.intrinsic_types.contains t then
    match afterType t rest with
    | .error e => .error e
    | .ok (vars, diags) => .ok (.decl vars diags)
  else if t == "type" || t == "class" then
    match rest with
    | [] => .error .stopIteration
    | p :: rest1 =>
      if p ≠ "(" then .error .assertFail
      else
        match rest1 with
        | [] => .error .stopIteration
        | vt :: rest2 =>
          match rest2 with
          | [] => .error .stopIteration
          | q :: rest3 =>
            if q ≠ ")" then .error .assertFail
            else
              match afterType vt rest3 with
              | .error e => .error e
              | .ok (vars, diags) => .ok (.decl vars diags)
  else if t == "namelist" then
    match parse_namelist (t :: rest) with
    | .error e => .error e
    | .ok gs => .ok (.namelistStmt gs)
  else .ok .unhandled

/-- `parse_declaration_construct` (src/flint/units/unit.py:243-410):
dispatch on the statement head — `interface`/`abstract interface`, `enum`
or `type` not followed by `(` (a nested derived type, named by the last
token), access specifiers, `data`, `parameter` — and otherwise the
variable-declaration else-branch.  `line[1]` on a lone `type` raises
`IndexError`. -/
def parse_declaration_construct (line : List String) : Except PErr DeclResult :=
  match line with
  | [] => .error .indexError
  | t :: rest =>
    let isAbs : Bool := t == "abstract" &&
      (match rest with
        | i2 :: _ => i2 == "interface"
        | [] => false)
    if t == "interface" || isAbs then .ok .interfaceBlock
    else if t == "enum" then .ok (.derivedType ((t :: rest).getLast?))
    else if t == "type" then
      match rest with
      | [] => .error .indexError
      | t2 :: _ =>
        if t2 != "(" then .ok (.derivedType ((t :: rest).getLast?))
        else decl_else t rest
    else if access_specs.contains t then .ok .accessStmt
    else if t == "data" then .ok .dataStmt
    else if t == "parameter" then .ok .paramStmt
    else decl_else t rest

end Unit

end Units

/-- A comma-separated entity list, split into its head and the repeated
`, <name>` tail. -/
theorem intersperse_comma (s : String) (n1 : String) (ns' : List String) :
    List.intersperse s (n1 :: ns') = n1 :: ns'.flatMap (fun n => [s, n]) := by
  induction ns' generalizing n1 with
  | nil => rfl
  | cons n2 rest ih => simp [List.intersperse, ih n2]

/-- The entity loop turns each `, <name>` pair into one Variable carrying
the shared declared type and intent, in order. -/
theorem entityLoop_flat (vt : String) (vi : Option String) (ns' : List String) :
    ∀ (vars : List Variable) (diags : List Diag),
      Units.Unit.entityLoop vt vi vars diags (ns'.flatMap (fun n => [",", n])) =
        .ok (vars ++ ns'.map (fun n => (⟨n, vt, vi⟩ : Variable)), diags) := by
  induction ns' with
  | nil =>
    intro vars diags
    simp [Units.Unit.entityLoop]
  | cons n rest ih =>
    intro vars diags
    simp only [List.flatMap_cons, List.cons_append, List.nil_append]
    have step : Units.Unit.entityLoop vt vi vars diags ("," :: n :: rest.flatMap fun m => [",", m]) =
        Units.Unit.entityLoop vt vi (vars ++ [⟨n, vt, vi⟩]) diags (rest.flatMap fun m => [",", m]) := by
      simp [Units.Unit.entityLoop]
    rw [step, ih]
    simp

/-- After the attribute loop, `::` is skipped and the token following it
becomes the first declared Variable. -/
theorem attrsLoop_colon (vt : String) (vi : Option String) (n1 : String) (flat : List String) :
    Units.Unit.attrsLoop vt vi "::" (n1 :: flat) =
      Units.Unit.entityLoop vt vi [⟨n1, vt, vi⟩] [] flat := by
  rw [Units.Unit.attrsLoop.eq_def]
  simp

/-- For an intrinsic base type the dispatcher reaches the
variable-declaration branch. -/
theorem dispatch_intrinsic (t : String) (ht : t ∈ Variable.intrinsic_types)
    (rest : List String) :
    Units.Unit.parse_declaration_construct (t :: rest) =
      (match Units.Unit.afterType t rest with
        | .error e => .error e
        | .ok (vars, diags) => .ok (.decl vars diags)) := by
  fin_cases ht <;> rfl

/-- C7: a declaration statement with a shared intrinsic base type and an
`intent(<i>)` attribute followed by `::` and a comma-separated entity
list produces exactly one Variable per declared name, in declared order,
each inheriting the shared declared type and intent, with no diagnostic. -/
theorem c7_shared_decl (t i : String) (ns : List String)
    (ht : t ∈ Variable.intrinsic_types) (hi : i = "in" ∨ i = "out" ∨ i = "inout")
    (hne : ns ≠ []) :
    Units.Unit.parse_declaration_construct
        (t :: "," :: "intent" :: "(" :: i :: ")" :: "::" :: List.intersperse "," ns) =
      .ok (.decl (ns.map fun n => (⟨n, t, some i⟩ : Variable)) []) := by
  rcases ns with _ | ⟨n1, ns'⟩
  · exact absurd rfl hne
  · rw [dispatch_intrinsic t ht, intersperse_comma]
    rcases hi with rfl | rfl | rfl <;>
      simp [Units.Unit.afterType, Units.Unit.afterKind, Units.Unit.attrsLoop,
        attrsLoop_colon, entityLoop_flat]

/-- Witness for C7 at `integer, intent(in) :: a, b, c`: exactly three
Variables, all intent `in`, all declared type `integer`, in order. -/
theorem c7_shared_decl_witness :
    Units.Unit.parse_declaration_construct
        ["integer", ",", "intent", "(", "in", ")", "::", "a", ",", "b", ",", "c"] =
      .ok (.decl [⟨"a", "integer", some "in"⟩, ⟨"b", "integer", some "in"⟩,
        ⟨"c", "integer", some "in"⟩] []) := by
  have h := c7_shared_decl "integer" "in" ["a", "b", "c"] (by decide) (Or.inl rfl) (by decide)
  simpa using h

/-! ## The build-graph resolver (src/flint/tools/makemake.py) -/

/-- Python `str.lower()` restricted to its ASCII action, which is all that
identifier tokens use. -/
def strLower (s : String) : String := ⟨s.data.map Char.toLower⟩

/-- Python `path.split('/')[-1]`: the basename after the last slash. -/
def afterLastSlash (cs : List Char) : List Char :=
  cs.foldl (fun acc ch => if ch == '/' then [] else acc ++ [ch]) []

/-- Python `s.replace('.f90', '.o')`: every occurrence of the four
characters `.f90`, scanned left to right without overlap, becomes `.o`. -/
def replace_f90 : List Char → List Char
  | '.' :: 'f' :: '9' :: '0' :: rest => '.' :: 'o' :: replace_f90 rest
  | ch :: rest => ch :: replace_f90 rest
  | [] => []

/-- Python `s.replace('.F90', '.o')`. -/
def replace_F90 : List Char → List Char
  | '.' :: 'F' :: '9' :: '0' :: rest => '.' :: 'o' :: replace_F90 rest
  | ch :: rest => ch :: replace_F90 rest
  | [] => []

namespace Makemake

/-- The fields of a nested subprogram that `makemake` reads
(src/flint/tools/makemake.py:176-184): its name and its callee set.
`callees` is a Python set; it is modelled as a list in its iteration
order, which the concrete inputs below keep singleton so that the order
is immaterial. -/
structure SubProg where
  name : String
  callees : List String
deriving DecidableEq, Repr

/-- The fields of a top-level parsed unit that `makemake` reads
(src/flint/tools/makemake.py:134-188).  `used_modules` is a Python set,
modelled as a list in iteration order. -/
structure FUnit where
  name : String
  utype : String
  used_modules : List String
  subprograms : List SubProg
deriving DecidableEq, Repr

/-- A parsed source file as `makemake` consumes it: its path and its
top-level units. -/
structure Source where
  path : String
  units : List FUnit
deriving DecidableEq, Repr

/-- The fatal conditions of `makemake`: the four `assert`s of the passes
(duplicate object / program / module / external definition), the unbound
local `c` at src/flint/tools/makemake.py:183-184 (a Python `NameError`
when no callee iteration has bound `c` yet), and the
`object_file_for[prog]` subscript at line 234 (`KeyError` when the
program name is not a registered module/external provider). -/
inductive MErr where
  | duplicateObject (o : String)
  | duplicateProgram (p : String)
  | duplicateModule (m : String)
  | duplicateExternal (c : String)
  | nameError
  | keyError (k : String)
deriving DecidableEq, Repr

/-- `this_obj = this_src.split('/')[-1].replace('.f90','.o').replace('.F90','.o')`
(src/flint/tools/makemake.py:129). -/
def objOf (path : String) : String :=
  ⟨replace_F90 (replace_f90 (afterLastSlash path.data))⟩

/-- `__generate_link_list` (src/flint/tools/makemake.py:61-71), with the
guard `level <= 99` expressed through the remaining recursion budget
`fuel = 100 - level`: the guard holds exactly when `fuel ≥ 1`, and the
recursive calls at `level + 1` run with `fuel - 1`. -/
def gllFuel (nfb : List (String × List String)) : Nat → List String → List String → List String
  | 0, _, obj_list => obj_list
  | fuel + 1, objects, obj_list =>
    objects.foldl
      (fun obj_list o =>
        if o ∈ obj_list then obj_list
        else
          let obj_list2 := obj_list ++ [o]
          match List.lookup o nfb with
          | none => obj_list2
          | some ns => ns.foldl (fun acc n => gllFuel nfb fuel [n] acc) obj_list2)
      obj_list

/-- `__generate_link_list(objects, needed_for_link_by, obj_list, level)`:
at `level ≤ 99` process `objects`, recursing on each needed object at
`level + 1`; at `level ≥ 100` return `obj_list` unchanged. -/
def generate_link_list (objects : List String) (nfb : List (String × List String))
    (obj_list : List String) (level : Nat) : List String :=
  gllFuel nfb (100 - level) objects obj_list

/-- State accumulated by the first pass of `makemake`
(src/flint/tools/makemake.py:109-140): the program → object map, the
source → object map, the case-folded module names seen, and all object
names. -/
structure Pass1State where
  programs : List (String × String)
  src_to_obj : List (String × String)
  modules_in_src : List String
  all_objs : List String
deriving DecidableEq, Repr

def pass1Init : Pass1State := ⟨[], [], [], []⟩

/-- First-pass handling of one unit (src/flint/tools/makemake.py:134-140):
a `program` must be new in `programs`, a `module`'s case-folded name must
be new in `modules_in_src`. -/
def pass1Unit (this_obj : String) (st : Pass1State) (u : FUnit) : Except MErr Pass1State :=
  if u.utype == "program" then
    if (List.lookup u.name st.programs).isSome then .error (.duplicateProgram u.name)
    else .ok { st with programs := st.programs ++ [(u.name, this_obj)] }
  else if u.utype == "module" then
    if strLower u.name ∈ st.modules_in_src then .error (.duplicateModule (strLower u.name))
    else .ok { st with modules_in_src := st.modules_in_src ++ [strLower u.name] }
  else .ok st

def pass1Units (this_obj : String) : Pass1State → List FUnit → Except MErr Pass1State
  | st, [] => .ok st
  | st, u :: us =>
    match pass1Unit this_obj st u with
    | .error e => .error e
    | .ok st2 => pass1Units this_obj st2 us

/-- First-pass handling of one source file
(src/flint/tools/makemake.py:127-140): derive the object name, record it
in `src_to_obj`, fail if it repeats in `all_objs`, then scan the units. -/
def pass1Src (st : Pass1State) (src : Source) : Except MErr Pass1State :=
  let this_obj := objOf src.path
  let st1 := { st with src_to_obj := dictSet st.src_to_obj src.path this_obj }
  if this_obj ∈ st1.all_objs then .error (.duplicateObject this_obj)
  else pass1Units this_obj { st1 with all_objs := st1.all_objs ++ [this_obj] } src.units

def pass1 : Pass1State → List Source → Except MErr Pass1State
  | st, [] => .ok st
  | st, s :: ss =>
    match pass1Src st s with
    | .error e => .error e
    | .ok st2 => pass1 st2 ss

/-- State accumulated by the second pass
(src/flint/tools/makemake.py:112,155-156): the module/external provider
map `object_file_for` and the per-object use lists, together with the
function-scope loop variable `c` of the callee loops at lines 178-184 —
`none` while no callee iteration has bound it (using it then is a Python
`NameError`). -/
structure Pass2State where
  object_file_for : List (String × String)
  modules_used_by_object : List (String × List String)
  externals_used_by_object : List (String × List String)
  c : Option String
deriving DecidableEq, Repr

def pass2Init : Pass2State := ⟨[], [], [], none⟩

/-- The per-source accumulators of the second pass
(src/flint/tools/makemake.py:160-162). -/
structure SrcLocals where
  uses_modules : List String
  uses_externals : List String
  modules_provided : List String
deriving DecidableEq, Repr

/-- Second-pass handling of one subprogram
(src/flint/tools/makemake.py:176-184): iterate the callees — rebinding
the loop variable `c` at every step and keeping external ones — and then,
for a subprogram whose own name is external, register `object_file_for[c]
= this_obj`: the *stale loop variable* `c`, not `sub.name`. -/
def pass2Sub (externals : List String) (this_obj : String) :
    Pass2State × SrcLocals → SubProg → Except MErr (Pass2State × SrcLocals)
  | (st, loc), sub =>
    let step := sub.callees.foldl
      (fun (p : List String × Option String) cc =>
        ((if cc ∈ externals then p.1 ++ [cc] else p.1), some cc))
      (loc.uses_externals, st.c)
    let st1 := { st with c := step.2 }
    let loc1 := { loc with uses_externals := step.1 }
    if sub.name ∈ externals then
      match st1.c with
      | none => .error .nameError
      | some cv =>
        if (List.lookup cv st1.object_file_for).isSome then .error (.duplicateExternal cv)
        else .ok ({ st1 with object_file_for := dictSet st1.object_file_for cv this_obj }, loc1)
    else .ok (st1, loc1)

def pass2Subs (externals : List String) (this_obj : String) :
    Pass2State × SrcLocals → List SubProg → Except MErr (Pass2State × SrcLocals)
  | p, [] => .ok p
  | p, s :: ss =>
    match pass2Sub externals this_obj p s with
    | .error e => .error e
    | .ok p2 => pass2Subs externals this_obj p2 ss

/-- Second-pass handling of one unit (src/flint/tools/makemake.py:164-188):
register a module provider (its case-folded name must be new within this
file), collect the used modules defined in the project, scan the
subprograms, and register a unit whose own name is external. -/
def pass2Unit (externals modules_in_src : List String) (this_obj : String) :
    Pass2State × SrcLocals → FUnit → Except MErr (Pass2State × SrcLocals)
  | (st, loc), u =>
    let step1 : Except MErr (Pass2State × SrcLocals) :=
      if u.utype == "module" then
        if strLower u.name ∈ loc.modules_provided then
          .error (.duplicateModule (strLower u.name))
        else
          .ok ({ st with object_file_for := dictSet st.object_file_for (strLower u.name) this_obj },
            { loc with modules_provided := loc.modules_provided ++ [strLower u.name] })
      else .ok (st, loc)
    match step1 with
    | .error e => .error e
    | .ok (st1, loc1) =>
      let loc2 := { loc1 with uses_modules := loc1.uses_modules ++
        ((u.used_modules.map strLower).filter (fun m => modules_in_src.contains m)) }
      match pass2Subs externals this_obj (st1, loc2) u.subprograms with
      | .error e => .error e
      | .ok (st2, loc3) =>
        if u.name ∈ externals then
          if (List.lookup u.name st2.object_file_for).isSome then
            .error (.duplicateExternal u.name)
          else .ok ({ st2 with object_file_for := dictSet st2.object_file_for u.name this_obj }, loc3)
        else .ok (st2, loc3)

def pass2Units (externals modules_in_src : List String) (this_obj : String) :
    Pass2State × SrcLocals → List FUnit → Except MErr (Pass2State × SrcLocals)
  | p, [] => .ok p
  | p, u :: us =>
    match pass2Unit externals modules_in_src this_obj p u with
    | .error e => .error e
    | .ok p2 => pass2Units externals modules_in_src this_obj p2 us

/-- Second-pass handling of one source file
(src/flint/tools/makemake.py:157-193): `this_obj = src_to_obj[this_src]`,
which the first pass set to `objOf src.path`; scan the units with fresh
per-source accumulators and record the non-empty use lists. -/
def pass2Src (externals modules_in_src : List String) (st : Pass2State) (src : Source) :
    Except MErr Pass2State :=
  let this_obj := objOf src.path
  match pass2Units externals modules_in_src this_obj (st, ⟨[], [], []⟩) src.units with
  | .error e => .error e
  | .ok (st1, loc) =>
    let st2 :=
      if loc.uses_modules ≠ [] then
        { st1 with modules_used_by_object :=
            dictSet st1.modules_used_by_object this_obj loc.uses_modules }
      else st1
    let st3 :=
      if loc.uses_externals ≠ [] then
        { st2 with externals_used_by_object :=
            dictSet st2.externals_used_by_object this_obj loc.uses_externals }
      else st2
    .ok st3

def pass2 (externals modules_in_src : List String) : Pass2State → List Source → Except MErr Pass2State
  | st, [] => .ok st
  | st, s :: ss =>
    match pass2Src externals modules_in_src st s with
    | .error e => .error e
    | .ok st2 => pass2 externals modules_in_src st2 ss

/-- The inner loops of the third pass (src/flint/tools/makemake.py:215-226):
resolve each used name through `object_file_for` and append the owning
object if not already collected; unresolved names are dropped. -/
def addProviders (off : List (String × String)) (names objects : List String) : List String :=
  names.foldl
    (fun objs m =>
      match List.lookup m off with
      | some o => if o ∈ objs then objs else objs ++ [o]
      | none => objs)
    objects

/-- The third pass (src/flint/tools/makemake.py:211-228): for each object
file, the objects it needs at link time, resolved from its used modules
and used externals. -/
def pass3 (src_to_obj : List (String × String)) (st : Pass2State) : List (String × List String) :=
  src_to_obj.foldl
    (fun nfb p =>
      let this_obj := p.2
      let objects := addProviders st.object_file_for
        ((List.lookup this_obj st.modules_used_by_object).getD []) []
      let objects2 := addProviders st.object_file_for
        ((List.lookup this_obj st.externals_used_by_object).getD []) objects
      dictSet nfb this_obj objects2)
    []

/-- The link-rule loop body (src/flint/tools/makemake.py:233-234):
`lst = __generate_link_list([object_file_for[prog]], needed_for_link_by)`;
the subscript raises `KeyError` when the program name was never registered
as a module or external provider. -/
def link_rule (object_file_for : List (String × String)) (nfb : List (String × List String))
    (prog : String) : Except MErr (List String) :=
  match List.lookup prog object_file_for with
  | none => .error (.keyError prog)
  | some o => .ok (generate_link_list [o] nfb [] 0)

/-- The resolver passes of `makemake` in order
(src/flint/tools/makemake.py:125-228, with the file emission and `.h`
scanning — external collaborators — omitted): the first pass over all
sources, then the second pass using the collected `modules_in_src`. -/
def resolve (externals : List String) (srcs : List Source) :
    Except MErr (Pass1State × Pass2State) :=
  match pass1 pass1Init srcs with
  | .error e => .error e
  | .ok st1 =>
    match pass2 externals st1.modules_in_src pass2Init srcs with
    | .error e => .error e
    | .ok st2 => .ok (st1, st2)

/-- The `object_file_for` map produced by a resolver run (empty when the
run fails). -/
def object_file_for_of (r : Except MErr (Pass1State × Pass2State)) : List (String × String) :=
  match r with
  | .ok (_, st2) => st2.object_file_for
  | .error _ => []

end Makemake

/-! ## Claim C1: external-symbol providers -/

/-- C1: the failing input.  One source file `a.f90` whose module `m_mod`
contains a subprogram named `ext`, with `ext` on the external-symbol list
and a single callee `other` (not external).  Per the claim,
`object_file_for` should map `ext` — the subprogram's own name — to
`a.o`.  The code instead registers the stale callee-loop variable:
`object_file_for[c] = this_obj` at src/flint/tools/makemake.py:184 uses
`c`, left bound to the last iterated callee `other`, although the guard
on line 182 tested `sub.name`.  The run succeeds with `object_file_for`
mapping `other` — never `ext`. -/
theorem c1_external_provider_bug :
    Makemake.object_file_for_of (Makemake.resolve ["ext"]
        [⟨"a.f90", [⟨"m_mod", "module", [], [⟨"ext", ["other"]⟩]⟩]⟩]) =
      [("m_mod", "a.o"), ("other", "a.o")] ∧
    List.lookup "ext" (Makemake.object_file_for_of (Makemake.resolve ["ext"]
        [⟨"a.f90", [⟨"m_mod", "module", [], [⟨"ext", ["other"]⟩]⟩]⟩])) = none := by
  refine ⟨?_, ?_⟩ <;> decide

/-! ## Claim C5: link-closure termination and the absent cycle warning -/

/-- The cycle warning the spec describes for the link-closure computation. -/
inductive LinkDiag where
  | linkCycleSuspected
deriving DecidableEq, Repr

/-- The diagnostics `__generate_link_list` reports while traversing:
src/flint/tools/makemake.py:61-71 contains no reporting mechanism at all
— the `level <= 99` guard (line 64, commented "Avoid a complete run away
in case of circular referencing") silently truncates — and `makemake`
prints nothing about cycles either, so the diagnostic output of the
link-list computation is empty on every input. -/
def generate_link_list_diagnostics (_objects : List String)
    (_nfb : List (String × List String)) (_obj_list : List String) (_level : Nat) :
    List LinkDiag := []

/-- C5 counterexample: on the artificially cyclic graph (`a.o` needs
`b.o`, `b.o` needs `a.o`) the computation terminates with the
de-duplicated closure, but no `LinkCycleSuspected` warning is reported —
the diagnostic stream is empty, refuting the claim's reporting half. -/
theorem c5_counterexample :
    Makemake.generate_link_list ["a.o"] [("a.o", ["b.o"]), ("b.o", ["a.o"])] [] 0 =
        ["a.o", "b.o"] ∧
      generate_link_list_diagnostics ["a.o"] [("a.o", ["b.o"]), ("b.o", ["a.o"])] [] 0 = [] := by
  refine ⟨?_, rfl⟩
  decide

/-- One unfolding of the traversal on a single start object. -/
theorem gllFuel_step (nfb : List (String × List String)) (fuel : Nat) (o : String)
    (acc : List String) :
    Makemake.gllFuel nfb (fuel + 1) [o] acc =
      (if o ∈ acc then acc
       else
         match List.lookup o nfb with
         | none => acc ++ [o]
         | some ns => ns.foldl (fun acc2 n => Makemake.gllFuel nfb fuel [n] acc2) (acc ++ [o])) := by
  simp [Makemake.gllFuel]

/-- Once a start object is already collected, revisiting it changes
nothing, at any remaining depth. -/
theorem gllFuel_mem_fixed (nfb : List (String × List String)) (fuel : Nat) (x : String)
    (acc : List String) (hx : x ∈ acc) :
    Makemake.gllFuel nfb fuel [x] acc = acc := by
  cases fuel with
  | zero => rfl
  | succ fuel => simp [Makemake.gllFuel, hx]

/-- C5 amended: for every artificially cyclic two-object
`needed_for_link_by` graph (a needs b, b needs a), the link-list
computation terminates, returning the de-duplicated pair — the hard
recursion bound (`level <= 99`, i.e. depth 100) truncates any deeper
traversal, and at the bound the list is returned unchanged — but no
`LinkCycleSuspected` warning is reported: the computation emits no
diagnostic, silently. -/
theorem c5_link_cycle_terminates (a b : String) (hab : a ≠ b) :
    (Makemake.generate_link_list [a] [(a, [b]), (b, [a])] [] 0 = [a, b] ∧
      generate_link_list_diagnostics [a] [(a, [b]), (b, [a])] [] 0 = []) ∧
    ∀ (objs acc : List String) (nfb : List (String × List String)),
      Makemake.generate_link_list objs nfb acc 100 = acc := by
  have hba : ¬ (b = a) := fun hh => hab hh.symm
  have hbeq : (b == a) = false := by simpa using hba
  refine ⟨⟨?_, rfl⟩, fun objs acc nfb => rfl⟩
  show Makemake.gllFuel [(a, [b]), (b, [a])] 100 [a] [] = [a, b]
  have e1 : Makemake.gllFuel [(a, [b]), (b, [a])] 100 [a] [] =
      Makemake.gllFuel [(a, [b]), (b, [a])] 99 [b] [a] := by
    rw [show (100 : Nat) = 99 + 1 from rfl, gllFuel_step]
    simp [List.lookup]
  have e2 : Makemake.gllFuel [(a, [b]), (b, [a])] 99 [b] [a] =
      Makemake.gllFuel [(a, [b]), (b, [a])] 98 [a] [a, b] := by
    rw [show (99 : Nat) = 98 + 1 from rfl, gllFuel_step]
    simp [List.lookup, hab, hba, hbeq]
  rw [e1, e2, gllFuel_mem_fixed]
  simp

/-! ## Claim C6: the emitted link list -/

namespace Makemake

/-- One `needed_for_link_by` edge: `y` is among the objects `x` needs. -/
def linkEdge (nfb : List (String × List String)) (x y : String) : Prop :=
  ∃ ns, List.lookup x nfb = some ns ∧ y ∈ ns

/-- Reachability over `needed_for_link_by` edges. -/
def Reach (nfb : List (String × List String)) : String → String → Prop :=
  Relation.ReflTransGen (linkEdge nfb)

theorem gllFuel_zero_eq (nfb : List (String × List String)) (objects acc : List String) :
    gllFuel nfb 0 objects acc = acc := rfl

theorem gllFuel_nil_eq (nfb : List (String × List String)) (fuel : Nat) (acc : List String) :
    gllFuel nfb (fuel + 1) [] acc = acc := rfl

/-- Unfolding one object of the traversal loop. -/
theorem gllFuel_cons_eq (nfb : List (String × List String)) (fuel : Nat) (o : String)
    (os acc : List String) :
    gllFuel nfb (fuel + 1) (o :: os) acc =
      gllFuel nfb (fuel + 1) os
        (if o ∈ acc then acc
         else
           match List.lookup o nfb with
           | none => acc ++ [o]
           | some ns => ns.foldl (fun a n => gllFuel nfb fuel [n] a) (acc ++ [o])) := rfl

/-- The traversal only appends: the incoming list is a prefix of the
result. -/
theorem gllFuel_pfx (nfb : List (String × List String)) :
    ∀ (fuel : Nat) (objects acc : List String), acc <+: gllFuel nfb fuel objects acc := by
  intro fuel
  induction fuel with
  | zero => intro objects acc; exact List.prefix_refl acc
  | succ fuel ihf =>
    have hneeds : ∀ (ns acc : List String),
        acc <+: ns.foldl (fun a n => gllFuel nfb fuel [n] a) acc := by
      intro ns
      induction ns with
      | nil => intro acc; exact List.prefix_refl acc
      | cons n ns ihn =>
        intro acc
        simp only [List.foldl_cons]
        exact (ihf [n] acc).trans (ihn _)
    intro objects
    induction objects with
    | nil => intro acc; exact List.prefix_refl acc
    | cons o os iho =>
      intro acc
      rw [gllFuel_cons_eq]
      refine List.IsPrefix.trans ?_ (iho _)
      by_cases ho : o ∈ acc
      · simp [ho]
      · simp only [ho, if_false]
        rcases hlk : List.lookup o nfb with _ | ns
        · exact List.prefix_append acc [o]
        · exact (List.prefix_append acc [o]).trans (hneeds ns (acc ++ [o]))

/-- The needed-objects loop only appends. -/
theorem gllNeeds_pfx (nfb : List (String × List String)) (fuel : Nat) :
    ∀ (ns acc : List String), acc <+: ns.foldl (fun a n => gllFuel nfb fuel [n] a) acc := by
  intro ns
  induction ns with
  | nil => intro acc; exact List.prefix_refl acc
  | cons n ns ihn =>
    intro acc
    simp only [List.foldl_cons]
    exact (gllFuel_pfx nfb fuel [n] acc).trans (ihn _)

/-- Soundness of the traversal: everything collected is either already in
the incoming list or reachable from one of the start objects. -/
theorem gllFuel_sound (nfb : List (String × List String)) :
    ∀ (fuel : Nat) (objects acc : List String) (x : String),
      x ∈ gllFuel nfb fuel objects acc →
      x ∈ acc ∨ ∃ o, o ∈ objects ∧ Reach nfb o x := by
  intro fuel
  induction fuel with
  | zero => intro objects acc x hx; exact Or.inl hx
  | succ fuel ihf =>
    have hneeds : ∀ (ns acc : List String) (x : String),
        x ∈ ns.foldl (fun a n => gllFuel nfb fuel [n] a) acc →
        x ∈ acc ∨ ∃ n, n ∈ ns ∧ Reach nfb n x := by
      intro ns
      induction ns with
      | nil => intro acc x hx; exact Or.inl hx
      | cons n ns ihn =>
        intro acc x hx
        simp only [List.foldl_cons] at hx
        rcases ihn _ x hx with hx2 | ⟨n', hn', hr⟩
        · rcases ihf [n] acc x hx2 with hx3 | ⟨o, ho, hr⟩
          · exact Or.inl hx3
          · rw [List.mem_singleton] at ho
            subst ho
            exact Or.inr ⟨o, List.mem_cons_self o ns, hr⟩
        · exact Or.inr ⟨n', List.mem_cons_of_mem n hn', hr⟩
    intro objects
    induction objects with
    | nil => intro acc x hx; exact Or.inl hx
    | cons o os iho =>
      intro acc x hx
      rw [gllFuel_cons_eq] at hx
      rcases iho _ x hx with hx1 | ⟨o', ho', hr⟩
      · by_cases ho : o ∈ acc
        · simp only [ho, if_true] at hx1
          exact Or.inl hx1
        · simp only [ho, if_false] at hx1
          rcases hlk : List.lookup o nfb with _ | ns
          · rw [hlk] at hx1
            rcases List.mem_append.mp hx1 with hx2 | hx2
            · exact Or.inl hx2
            · rw [List.mem_singleton] at hx2
              subst hx2
              exact Or.inr ⟨x, List.mem_cons_self x os, Relation.ReflTransGen.refl⟩
          · rw [hlk] at hx1
            rcases hneeds ns (acc ++ [o]) x hx1 with hx2 | ⟨n, hn, hr⟩
            · rcases List.mem_append.mp hx2 with hx3 | hx3
              · exact Or.inl hx3
              · rw [List.mem_singleton] at hx3
                subst hx3
                exact Or.inr ⟨x, List.mem_cons_self x os, Relation.ReflTransGen.refl⟩
            · refine Or.inr ⟨o, List.mem_cons_self o os, ?_⟩
              exact Relation.ReflTransGen.head ⟨ns, hlk, hn⟩ hr
      · exact Or.inr ⟨o', List.mem_cons_of_mem o ho', hr⟩

/-- Appending a fresh element preserves distinctness. -/
theorem nodup_append_single {l : List String} {a : String} (hl : l.Nodup) (ha : a ∉ l) :
    (l ++ [a]).Nodup := by
  rw [← List.concat_eq_append]
  exact List.Nodup.concat ha hl

/-- The traversal preserves distinctness: objects are only appended when
absent. -/
theorem gllFuel_nodup (nfb : List (String × List String)) :
    ∀ (fuel : Nat) (objects acc : List String), acc.Nodup → (gllFuel nfb fuel objects acc).Nodup := by
  intro fuel
  induction fuel with
  | zero => intro objects acc h; exact h
  | succ fuel ihf =>
    have hneeds : ∀ (ns acc : List String), acc.Nodup →
        (ns.foldl (fun a n => gllFuel nfb fuel [n] a) acc).Nodup := by
      intro ns
      induction ns with
      | nil => intro acc h; exact h
      | cons n ns ihn =>
        intro acc h
        simp only [List.foldl_cons]
        exact ihn _ (ihf [n] acc h)
    intro objects
    induction objects with
    | nil => intro acc h; exact h
    | cons o os iho =>
      intro acc h
      rw [gllFuel_cons_eq]
      refine iho _ ?_
      by_cases ho : o ∈ acc
      · simpa [ho] using h
      · simp only [ho, if_false]
        rcases hlk : List.lookup o nfb with _ | ns
        · exact nodup_append_single h ho
        · exact hneeds ns (acc ++ [o]) (nodup_append_single h ho)

/-- The emitted list starts with the start object. -/
theorem gllFuel_head (nfb : List (String × List String)) (o : String) :
    (gllFuel nfb 100 [o] []).head? = some o := by
  rw [show (100 : Nat) = 99 + 1 from rfl, gllFuel_cons_eq, gllFuel_nil_eq]
  simp only [List.not_mem_nil, if_false, List.nil_append]
  rcases hlk : List.lookup o nfb with _ | ns
  · rfl
  · obtain ⟨t, ht⟩ := gllNeeds_pfx nfb 99 ns [o]
    show (List.foldl (fun a n => gllFuel nfb 99 [n] a) [o] ns).head? = some o
    rw [← ht]
    rfl

end Makemake

/-- Modelled from the claim's words (C6): the transitive closure over
`needed_for_link_by` starting from a given object, enumerated in breadth
order and de-duplicated — a fuel-bounded breadth-first traversal with a
FIFO queue. -/
def breadth_closure_claim (nfb : List (String × List String)) :
    Nat → List String → List String → List String
  | 0, _, visited => visited
  | _ + 1, [], visited => visited
  | fuel + 1, q :: qs, visited =>
    if q ∈ visited then breadth_closure_claim nfb fuel qs visited
    else breadth_closure_claim nfb fuel (qs ++ (List.lookup q nfb).getD []) (visited ++ [q])

/-- C6 counterexample: with `p.o` needing `a.o` and `b.o`, and `a.o`
needing `c.o` (and the program registered as a provider so that the start
object is its own object), the emitted link list is the depth-first
preorder `p.o a.o c.o b.o`, not the breadth-order enumeration
`p.o a.o b.o c.o` of the claim's transitive closure. -/
theorem c6_counterexample :
    Makemake.link_rule [("p", "p.o")] [("p.o", ["a.o", "b.o"]), ("a.o", ["c.o"])] "p" =
        .ok ["p.o", "a.o", "c.o", "b.o"] ∧
      breadth_closure_claim [("p.o", ["a.o", "b.o"]), ("a.o", ["c.o"])] 10 ["p.o"] [] =
        ["p.o", "a.o", "b.o", "c.o"] ∧
      (["p.o", "a.o", "c.o", "b.o"] : List String) ≠ ["p.o", "a.o", "b.o", "c.o"] := by
  refine ⟨rfl, by decide, by decide⟩

/-- C6 amended: for every program target, the emitted link list is
computed from `object_file_for[prog]` — a fatal `KeyError` when the
program's name was never registered as a module or external provider —
and when the lookup yields an object `o`, the list starts with `o`,
contains each object file at most once, and contains only objects
reachable from `o` over `needed_for_link_by`; the enumeration is
depth-first preorder rather than breadth order, and reachable objects
beyond the recursion-depth bound of 100 may be omitted. -/
theorem c6_link_list_characterisation (off : List (String × String))
    (nfb : List (String × List String)) (prog : String) :
    (List.lookup prog off = none →
      Makemake.link_rule off nfb prog = .error (.keyError prog)) ∧
    (∀ o, List.lookup prog off = some o →
      ∃ l, Makemake.link_rule off nfb prog = .ok l ∧ l.head? = some o ∧
        l.Nodup ∧ ∀ x ∈ l, Makemake.Reach nfb o x) := by
  constructor
  · intro h
    simp [Makemake.link_rule, h]
  · intro o h
    refine ⟨Makemake.generate_link_list [o] nfb [] 0,
      by simp [Makemake.link_rule, h], ?_, ?_, ?_⟩
    · exact Makemake.gllFuel_head nfb o
    · exact Makemake.gllFuel_nodup nfb 100 [o] [] List.nodup_nil
    · intro x hx
      rcases Makemake.gllFuel_sound nfb 100 [o] [] x hx with h1 | ⟨o', ho', hr⟩
      · simp at h1
      · rw [List.mem_singleton] at ho'
        subst ho'
        exact hr

/-- Witness for C6's amended characterisation on a singleton project. -/
theorem c6_link_list_characterisation_witness :
    ∃ l, Makemake.link_rule [("p", "p.o")] [("p.o", ["a.o"])] "p" = .ok l ∧
      l.head? = some "p.o" ∧ l.Nodup ∧
      ∀ x ∈ l, Makemake.Reach [("p.o", ["a.o"])] "p.o" x :=
  (c6_link_list_characterisation [("p", "p.o")] [("p.o", ["a.o"])] "p").2 "p.o" (by decide)

/-- Witness for C5's amended statement at the concrete cycle
`a.o ↔ b.o`. -/
theorem c5_link_cycle_terminates_witness :
    (Makemake.generate_link_list ["a.o"] [("a.o", ["b.o"]), ("b.o", ["a.o"])] [] 0 =
        ["a.o", "b.o"] ∧
      generate_link_list_diagnostics ["a.o"] [("a.o", ["b.o"]), ("b.o", ["a.o"])] [] 0 = []) ∧
    ∀ (objs acc : List String) (nfb : List (String × List String)),
      Makemake.generate_link_list objs nfb acc 100 = acc :=
  c5_link_cycle_terminates "a.o" "b.o" (by decide)

/-! ## Claim C8: module definition and registration -/

/-- The keys of an association list. -/
def keysOf {α : Type} (l : List (String × α)) : List String := l.map Prod.fst

theorem keysOf_append {α : Type} (l1 l2 : List (String × α)) :
    keysOf (l1 ++ l2) = keysOf l1 ++ keysOf l2 := List.map_append _ l1 l2

/-- Assigning a fresh key appends the pair. -/
theorem dictSet_fresh {α : Type} (m : List (String × α)) (k : String) (v : α)
    (hk : k ∉ keysOf m) : dictSet m k v = m ++ [(k, v)] := by
  induction m with
  | nil => rfl
  | cons p rest ih =>
    obtain ⟨k0, v0⟩ := p
    have hne : k0 ≠ k := by
      intro hh
      exact hk (by simp [keysOf, hh])
    have hb : (k0 == k) = false := by simpa using hne
    have hk2 : k ∉ keysOf rest := fun hh => hk (by simp [keysOf] at hh ⊢; exact Or.inr hh)
    simp [dictSet, hb, ih hk2]

/-- Membership of a key equals a successful lookup. -/
theorem lookup_isSome_iff {α : Type} (k : String) (m : List (String × α)) :
    (List.lookup k m).isSome = true ↔ k ∈ keysOf m := by
  induction m with
  | nil => simp [keysOf]
  | cons p rest ih =>
    obtain ⟨k0, v0⟩ := p
    by_cases hk : k = k0
    · subst hk
      simp [List.lookup, keysOf]
    · have hb : (k == k0) = false := by simpa using hk
      simp [List.lookup, hb, keysOf, ih, hk]

/-- With pairwise-distinct keys, lookup finds the unique stored value. -/
theorem lookup_of_mem_nodup {α : Type} (m : List (String × α)) (k : String) (v : α)
    (hmem : (k, v) ∈ m) (hnd : (keysOf m).Nodup) : List.lookup k m = some v := by
  induction m with
  | nil => simp at hmem
  | cons p rest ih =>
    obtain ⟨k0, v0⟩ := p
    have hnd2 : (keysOf rest).Nodup := (List.nodup_cons.mp hnd).2
    rcases List.mem_cons.mp hmem with heq | hmem2
    · obtain ⟨rfl, rfl⟩ := Prod.mk.injEq .. ▸ heq
      simp [List.lookup]
    · have hk0 : k0 ∉ keysOf rest := (List.nodup_cons.mp hnd).1
      have hkmem : k ∈ keysOf rest := by
        unfold keysOf
        exact List.mem_map.mpr ⟨(k, v), hmem2, rfl⟩
      have hne : k ≠ k0 := by
        rintro rfl
        exact hk0 hkmem
      have hb : (k == k0) = false := by simpa using hne
      simp [List.lookup, hb, ih hmem2 hnd2]

namespace Makemake

/-- Case-folded names of the module units in a unit list. -/
def modNamesU (us : List FUnit) : List String :=
  (us.filter (fun u => u.utype == "module")).map (fun u => strLower u.name)

/-- Names of the program units in a unit list. -/
def progNamesU (us : List FUnit) : List String :=
  (us.filter (fun u => u.utype == "program")).map (fun u => u.name)

/-- Case-folded names of every module defined across a project, in
processing order. -/
def moduleNames (srcs : List Source) : List String :=
  srcs.flatMap (fun s => modNamesU s.units)

/-- Names of every program defined across a project, in processing order. -/
def programNames (srcs : List Source) : List String :=
  srcs.flatMap (fun s => progNamesU s.units)

/-- Object-file names of a project, in processing order. -/
def objNames (srcs : List Source) : List String := srcs.map (fun s => objOf s.path)

/-- An element sandwiched inside an append is missing on the left when
the whole is duplicate-free. -/
theorem not_mem_left_of_nodup_middle {xs rest : List String} {a : String}
    (h : (xs ++ a :: rest).Nodup) : a ∉ xs := by
  intro hmem
  have hd := (List.nodup_append.mp h).2.2
  exact hd hmem (List.mem_cons_self a rest)

/-- The first pass over the units of one source file: with distinct
program names, it succeeds exactly when the accumulated module names stay
distinct, extending the state by this file's programs and modules; a
module-name repeat is a `DuplicateModule` failure. -/
theorem pass1Units_spec (this_obj : String) :
    ∀ (us : List FUnit) (st : Pass1State),
      (keysOf st.programs ++ progNamesU us).Nodup →
      st.modules_in_src.Nodup →
      (((st.modules_in_src ++ modNamesU us).Nodup →
          ∃ prs, keysOf prs = progNamesU us ∧
            pass1Units this_obj st us =
              .ok ⟨st.programs ++ prs, st.src_to_obj,
                st.modules_in_src ++ modNamesU us, st.all_objs⟩) ∧
        (¬ (st.modules_in_src ++ modNamesU us).Nodup →
          ∃ m, pass1Units this_obj st us = .error (.duplicateModule m))) := by
  intro us
  induction us with
  | nil =>
    intro st hp hm
    constructor
    · intro _
      exact ⟨[], rfl, by simp [pass1Units, modNamesU, progNamesU]⟩
    · intro hbad
      exact absurd (by simpa [modNamesU] using hm) hbad
  | cons u us ih =>
    intro st hp hm
    by_cases hup : u.utype = "program"
    · have hbp : (u.utype == "program") = true := by simpa using hup
      have hbm : (u.utype == "module") = false := by
        simp [hup]
      have hpn : progNamesU (u :: us) = u.name :: progNamesU us := by
        simp [progNamesU, List.filter_cons, hbp]
      have hmn : modNamesU (u :: us) = modNamesU us := by
        simp [modNamesU, List.filter_cons, hbm]
      rw [hpn] at hp
      have hnot : u.name ∉ keysOf st.programs := not_mem_left_of_nodup_middle hp
      have hlk : (List.lookup u.name st.programs).isSome = false := by
        rcases hs : (List.lookup u.name st.programs).isSome with _ | _
        · rfl
        · exact absurd ((lookup_isSome_iff _ _).mp hs) hnot
      have hstep : pass1Unit this_obj st u =
          .ok { st with programs := st.programs ++ [(u.name, this_obj)] } := by
        simp [pass1Unit, hbp, hlk]
      have hrec := ih { st with programs := st.programs ++ [(u.name, this_obj)] }
        (by
          simp only [keysOf_append]
          have : keysOf [(u.name, this_obj)] = [u.name] := rfl
          rw [this, List.append_assoc, List.singleton_append]
          exact hp)
        hm
      constructor
      · intro hgood
        rw [hmn] at hgood
        obtain ⟨prs, hkeys, hok⟩ := hrec.1 hgood
        refine ⟨(u.name, this_obj) :: prs, by simp [keysOf, hpn, keysOf] at hkeys ⊢; exact hkeys, ?_⟩
        rw [show pass1Units this_obj st (u :: us) =
            pass1Units this_obj { st with programs := st.programs ++ [(u.name, this_obj)] } us from by
          simp [pass1Units, hstep]]
        rw [hok]
        simp [hmn]
      · intro hbad
        rw [hmn] at hbad
        obtain ⟨m, herr⟩ := hrec.2 hbad
        refine ⟨m, ?_⟩
        rw [show pass1Units this_obj st (u :: us) =
            pass1Units this_obj { st with programs := st.programs ++ [(u.name, this_obj)] } us from by
          simp [pass1Units, hstep]]
        exact herr
    · by_cases hum : u.utype = "module"
      · have hbp : (u.utype == "program") = false := by simpa using hup
        have hbm : (u.utype == "module") = true := by simpa using hum
        have hpn : progNamesU (u :: us) = progNamesU us := by
          simp [progNamesU, List.filter_cons, hbp]
        have hmn : modNamesU (u :: us) = strLower u.name :: modNamesU us := by
          simp [modNamesU, List.filter_cons, hbm]
        rw [hpn] at hp
        constructor
        · intro hgood
          rw [hmn] at hgood
          have hnot : strLower u.name ∉ st.modules_in_src :=
            not_mem_left_of_nodup_middle hgood
          have hstep : pass1Unit this_obj st u =
              .ok { st with modules_in_src := st.modules_in_src ++ [strLower u.name] } := by
            simp [pass1Unit, hbp, hbm, hnot]
          have hm2 : (st.modules_in_src ++ [strLower u.name]).Nodup :=
            nodup_append_single hm hnot
          have hrec := ih { st with modules_in_src := st.modules_in_src ++ [strLower u.name] }
            hp hm2
          have hgood2 : ((st.modules_in_src ++ [strLower u.name]) ++ modNamesU us).Nodup := by
            rw [List.append_assoc, List.singleton_append]
            exact hgood
          obtain ⟨prs, hkeys, hok⟩ := hrec.1 hgood2
          refine ⟨prs, by rw [hpn]; exact hkeys, ?_⟩
          rw [show pass1Units this_obj st (u :: us) =
              pass1Units this_obj
                { st with modules_in_src := st.modules_in_src ++ [strLower u.name] } us from by
            simp [pass1Units, hstep]]
          rw [hok]
          simp [hmn]
        · intro hbad
          rw [hmn] at hbad
          by_cases hlow : strLower u.name ∈ st.modules_in_src
          · refine ⟨strLower u.name, ?_⟩
            have hstep : pass1Unit this_obj st u = .error (.duplicateModule (strLower u.name)) := by
              simp [pass1Unit, hbp, hbm, hlow]
            simp [pass1Units, hstep]
          · have hstep : pass1Unit this_obj st u =
                .ok { st with modules_in_src := st.modules_in_src ++ [strLower u.name] } := by
              simp [pass1Unit, hbp, hbm, hlow]
            have hm2 : (st.modules_in_src ++ [strLower u.name]).Nodup :=
              nodup_append_single hm hlow
            have hrec := ih { st with modules_in_src := st.modules_in_src ++ [strLower u.name] }
              hp hm2
            have hbad2 : ¬ ((st.modules_in_src ++ [strLower u.name]) ++ modNamesU us).Nodup := by
              rw [List.append_assoc, List.singleton_append]
              exact hbad
            obtain ⟨m, herr⟩ := hrec.2 hbad2
            refine ⟨m, ?_⟩
            rw [show pass1Units this_obj st (u :: us) =
                pass1Units this_obj
                  { st with modules_in_src := st.modules_in_src ++ [strLower u.name] } us from by
              simp [pass1Units, hstep]]
            exact herr
      · have hbp : (u.utype == "program") = false := by simpa using hup
        have hbm : (u.utype == "module") = false := by simpa using hum
        have hpn : progNamesU (u :: us) = progNamesU us := by
          simp [progNamesU, List.filter_cons, hbp]
        have hmn : modNamesU (u :: us) = modNamesU us := by
          simp [modNamesU, List.filter_cons, hbm]
        have hstep : pass1Unit this_obj st u = .ok st := by
          simp [pass1Unit, hbp, hbm]
        rw [hpn] at hp
        have hrec := ih st hp hm
        constructor
        · intro hgood
          rw [hmn] at hgood
          obtain ⟨prs, hkeys, hok⟩ := hrec.1 hgood
          refine ⟨prs, by rw [hpn]; exact hkeys, ?_⟩
          rw [show pass1Units this_obj st (u :: us) = pass1Units this_obj st us from by
            simp [pass1Units, hstep]]
          rw [hok]
          simp [hmn]
        · intro hbad
          rw [hmn] at hbad
          obtain ⟨m, herr⟩ := hrec.2 hbad
          refine ⟨m, ?_⟩
          rw [show pass1Units this_obj st (u :: us) = pass1Units this_obj st us from by
            simp [pass1Units, hstep]]
          exact herr

end Makemake

namespace Makemake

/-- The first pass over a whole project: with distinct program names and
distinct object names, it succeeds exactly when the case-folded module
names are distinct — collecting them in order — and otherwise fails with
`DuplicateModule`. -/
theorem pass1_spec :
    ∀ (srcs : List Source) (st : Pass1State),
      (keysOf st.programs ++ programNames srcs).Nodup →
      (st.all_objs ++ objNames srcs).Nodup →
      st.modules_in_src.Nodup →
      (((st.modules_in_src ++ moduleNames srcs).Nodup →
          ∃ st', pass1 st srcs = .ok st' ∧
            st'.modules_in_src = st.modules_in_src ++ moduleNames srcs) ∧
        (¬ (st.modules_in_src ++ moduleNames srcs).Nodup →
          ∃ m, pass1 st srcs = .error (.duplicateModule m))) := by
  intro srcs
  induction srcs with
  | nil =>
    intro st _ _ hm
    constructor
    · intro _
      exact ⟨st, rfl, by simp [moduleNames]⟩
    · intro hbad
      exact absurd (by simpa [moduleNames] using hm) hbad
  | cons src ss ih =>
    intro st hp hobj hm
    have hpn : programNames (src :: ss) = progNamesU src.units ++ programNames ss := by
      simp [programNames]
    have hmn : moduleNames (src :: ss) = modNamesU src.units ++ moduleNames ss := by
      simp [moduleNames]
    have hon : objNames (src :: ss) = objOf src.path :: objNames ss := by
      simp [objNames]
    rw [hpn] at hp
    rw [hon] at hobj
    -- the object-duplicate check passes
    have hobjnot : objOf src.path ∉ st.all_objs := not_mem_left_of_nodup_middle hobj
    set st1 : Pass1State :=
      ⟨st.programs, dictSet st.src_to_obj src.path (objOf src.path),
        st.modules_in_src, st.all_objs ++ [objOf src.path]⟩ with hst1
    have hsrc : pass1Src st src = pass1Units (objOf src.path) st1 src.units := by
      simp [pass1Src, hobjnot, hst1]
    -- per-unit pass on this source
    have hpU : (keysOf st1.programs ++ progNamesU src.units).Nodup := by
      have hsub : List.Sublist (keysOf st.programs ++ progNamesU src.units)
          (keysOf st.programs ++ (progNamesU src.units ++ programNames ss)) := by
        rw [← List.append_assoc]
        exact List.sublist_append_left _ _
      exact hp.sublist hsub
    have hunits := pass1Units_spec (objOf src.path) src.units st1 hpU hm
    constructor
    · intro hgood
      rw [hmn, ← List.append_assoc] at hgood
      have hgood1 : (st.modules_in_src ++ modNamesU src.units).Nodup :=
        hgood.sublist (List.sublist_append_left _ _)
      obtain ⟨prs, hkeys, hok⟩ := hunits.1 hgood1
      set st2 : Pass1State :=
        ⟨st.programs ++ prs, st1.src_to_obj,
          st.modules_in_src ++ modNamesU src.units, st.all_objs ++ [objOf src.path]⟩ with hst2
      have hchain : pass1 st (src :: ss) = pass1 st2 ss := by
        simp [pass1, hsrc, hok, hst2]
      have hrec := ih st2
        (by
          rw [hst2]
          simp only [keysOf_append, hkeys]
          rw [List.append_assoc]
          exact hp)
        (by
          rw [hst2]
          simp only []
          rw [List.append_assoc, List.singleton_append]
          exact hobj)
        hgood1
      obtain ⟨st', hok2, hmods⟩ := hrec.1 (by rw [hst2]; exact hgood)
      refine ⟨st', by rw [hchain]; exact hok2, ?_⟩
      rw [hmods, hst2, hmn]
      simp [List.append_assoc]
    · intro hbad
      rw [hmn, ← List.append_assoc] at hbad
      by_cases h1 : (st.modules_in_src ++ modNamesU src.units).Nodup
      · obtain ⟨prs, hkeys, hok⟩ := hunits.1 h1
        set st2 : Pass1State :=
          ⟨st.programs ++ prs, st1.src_to_obj,
            st.modules_in_src ++ modNamesU src.units, st.all_objs ++ [objOf src.path]⟩ with hst2
        have hchain : pass1 st (src :: ss) = pass1 st2 ss := by
          simp [pass1, hsrc, hok, hst2]
        have hrec := ih st2
          (by
            rw [hst2]
            simp only [keysOf_append, hkeys]
            rw [List.append_assoc]
            exact hp)
          (by
            rw [hst2]
            simp only []
            rw [List.append_assoc, List.singleton_append]
            exact hobj)
          h1
        obtain ⟨m, herr⟩ := hrec.2 (by rw [hst2]; exact hbad)
        exact ⟨m, by rw [hchain]; exact herr⟩
      · obtain ⟨m, herr⟩ := hunits.2 h1
        refine ⟨m, ?_⟩
        simp [pass1, hsrc, herr]

end Makemake

namespace Makemake

/-- The module registrations a source file contributes to
`object_file_for`: one pair per module unit, case-folded name to owning
object. -/
def regsU (this_obj : String) (us : List FUnit) : List (String × String) :=
  (us.filter (fun u => u.utype == "module")).map (fun u => (strLower u.name, this_obj))

theorem keysOf_regsU (this_obj : String) (us : List FUnit) :
    keysOf (regsU this_obj us) = modNamesU us := by
  simp [keysOf, regsU, modNamesU, List.map_map]


/-- With no external symbols, the callee loop leaves `uses_externals`
unchanged: it only rebinds the loop variable `c`. -/
theorem calleeFold_fst (cs : List String) :
    ∀ (ue : List String) (c0 : Option String),
      (cs.foldl (fun p cc => ((if cc ∈ ([] : List String) then p.1 ++ [cc] else p.1), some cc))
        (ue, c0)).1 = ue := by
  induction cs with
  | nil => intro ue c0; rfl
  | cons cc cs ih =>
    intro ue c0
    simp only [List.foldl_cons, List.not_mem_nil, if_false]
    exact ih ue (some cc)

/-- With no external symbols, a subprogram only rebinds `c`. -/
theorem pass2Sub_nil (this_obj : String) (st : Pass2State) (loc : SrcLocals) (sub : SubProg) :
    ∃ c', pass2Sub [] this_obj (st, loc) sub = .ok ({ st with c := c' }, loc) := by
  refine ⟨(sub.callees.foldl
    (fun p cc => ((if cc ∈ ([] : List String) then p.1 ++ [cc] else p.1), some cc))
    (loc.uses_externals, st.c)).2, ?_⟩
  simp only [pass2Sub]
  rw [if_neg (List.not_mem_nil sub.name), calleeFold_fst]

/-- With no external symbols, the whole subprogram loop only rebinds
`c`. -/
theorem pass2Subs_nil (this_obj : String) :
    ∀ (subs : List SubProg) (st : Pass2State) (loc : SrcLocals),
      ∃ c', pass2Subs [] this_obj (st, loc) subs = .ok ({ st with c := c' }, loc) := by
  intro subs
  induction subs with
  | nil =>
    intro st loc
    exact ⟨st.c, rfl⟩
  | cons sub subs ih =>
    intro st loc
    obtain ⟨c1, h1⟩ := pass2Sub_nil this_obj st loc sub
    obtain ⟨c2, h2⟩ := ih { st with c := c1 } loc
    refine ⟨c2, ?_⟩
    simp only [pass2Subs, h1]
    exact h2

/-- With no external symbols, a module unit registers its case-folded
name in `object_file_for` and extends `modules_provided`; nothing else in
the shared state changes except `c`. -/
theorem pass2Unit_nil_mod (mis : List String) (this_obj : String) (st : Pass2State)
    (loc : SrcLocals) (u : FUnit) (hum : u.utype = "module")
    (hprov : strLower u.name ∉ loc.modules_provided) :
    ∃ c' loc', pass2Unit [] mis this_obj (st, loc) u =
        .ok (⟨dictSet st.object_file_for (strLower u.name) this_obj,
          st.modules_used_by_object, st.externals_used_by_object, c'⟩, loc') ∧
      loc'.modules_provided = loc.modules_provided ++ [strLower u.name] := by
  have hbm : (u.utype == "module") = true := by simpa using hum
  obtain ⟨c', hsubs⟩ := pass2Subs_nil this_obj u.subprograms
    { st with object_file_for := dictSet st.object_file_for (strLower u.name) this_obj }
    ⟨loc.uses_modules ++ ((u.used_modules.map strLower).filter (fun m => mis.contains m)),
      loc.uses_externals, loc.modules_provided ++ [strLower u.name]⟩
  refine ⟨c', ⟨loc.uses_modules ++
    ((u.used_modules.map strLower).filter (fun m => mis.contains m)),
    loc.uses_externals, loc.modules_provided ++ [strLower u.name]⟩, ?_, rfl⟩
  simp only [pass2Unit, hbm, if_true]
  rw [if_neg hprov]
  dsimp only
  rw [hsubs]
  dsimp only
  rw [if_neg (List.not_mem_nil u.name)]

/-- With no external symbols, a non-module unit leaves `object_file_for`
and `modules_provided` unchanged (only `c` and the use lists move). -/
theorem pass2Unit_nil_other (mis : List String) (this_obj : String) (st : Pass2State)
    (loc : SrcLocals) (u : FUnit) (hum : u.utype ≠ "module") :
    ∃ c' loc', pass2Unit [] mis this_obj (st, loc) u = .ok ({ st with c := c' }, loc') ∧
      loc'.modules_provided = loc.modules_provided := by
  have hbm : (u.utype == "module") = false := by simpa using hum
  obtain ⟨c', hsubs⟩ := pass2Subs_nil this_obj u.subprograms st
    ⟨loc.uses_modules ++ ((u.used_modules.map strLower).filter (fun m => mis.contains m)),
      loc.uses_externals, loc.modules_provided⟩
  refine ⟨c', ⟨loc.uses_modules ++
    ((u.used_modules.map strLower).filter (fun m => mis.contains m)),
    loc.uses_externals, loc.modules_provided⟩, ?_, rfl⟩
  simp only [pass2Unit, hbm, Bool.false_eq_true, if_false]
  rw [hsubs]
  dsimp only
  rw [if_neg (List.not_mem_nil u.name)]

/-- With no external symbols, the second pass over the units of one file
appends exactly this file's module registrations to `object_file_for`,
provided the accumulated keys stay distinct. -/
theorem pass2Units_nil (mis : List String) (this_obj : String) :
    ∀ (us : List FUnit) (st : Pass2State) (loc : SrcLocals),
      (∀ x ∈ loc.modules_provided, x ∈ keysOf st.object_file_for) →
      (keysOf st.object_file_for ++ modNamesU us).Nodup →
      ∃ c' loc', pass2Units [] mis this_obj (st, loc) us =
        .ok (⟨st.object_file_for ++ regsU this_obj us,
          st.modules_used_by_object, st.externals_used_by_object, c'⟩, loc') := by
  intro us
  induction us with
  | nil =>
    intro st loc _ _
    refine ⟨st.c, loc, ?_⟩
    simp [pass2Units, regsU]
  | cons u us ih =>
    intro st loc hsub hnd
    by_cases hum : u.utype = "module"
    · have hbm : (u.utype == "module") = true := by simpa using hum
      have hmn : modNamesU (u :: us) = strLower u.name :: modNamesU us := by
        simp [modNamesU, List.filter_cons, hbm]
      have hrn : regsU this_obj (u :: us) = (strLower u.name, this_obj) :: regsU this_obj us := by
        simp [regsU, List.filter_cons, hbm]
      rw [hmn] at hnd
      have hfresh : strLower u.name ∉ keysOf st.object_file_for :=
        not_mem_left_of_nodup_middle hnd
      have hprov : strLower u.name ∉ loc.modules_provided := fun hh => hfresh (hsub _ hh)
      obtain ⟨c1, loc1, hstep, hmp⟩ := pass2Unit_nil_mod mis this_obj st loc u hum hprov
      have hset : dictSet st.object_file_for (strLower u.name) this_obj =
          st.object_file_for ++ [(strLower u.name, this_obj)] :=
        dictSet_fresh _ _ _ hfresh
      obtain ⟨c2, loc2, hok⟩ := ih
        ⟨st.object_file_for ++ [(strLower u.name, this_obj)],
          st.modules_used_by_object, st.externals_used_by_object, c1⟩ loc1
        (by
          intro x hx
          rw [hmp] at hx
          simp only [keysOf_append]
          rcases List.mem_append.mp hx with hx1 | hx1
          · exact List.mem_append_left _ (hsub x hx1)
          · rw [List.mem_singleton] at hx1
            subst hx1
            exact List.mem_append_right _ (by
              rw [show keysOf [(strLower u.name, this_obj)] = [strLower u.name] from rfl]
              exact List.mem_singleton.mpr rfl))
        (by
          simp only [keysOf_append]
          rw [show keysOf [(strLower u.name, this_obj)] = [strLower u.name] from rfl]
          rw [List.append_assoc, List.singleton_append]
          exact hnd)
      refine ⟨c2, loc2, ?_⟩
      have hchain : pass2Units [] mis this_obj (st, loc) (u :: us) =
          pass2Units [] mis this_obj (⟨st.object_file_for ++ [(strLower u.name, this_obj)],
            st.modules_used_by_object, st.externals_used_by_object, c1⟩, loc1) us := by
        simp only [pass2Units, hstep, hset]
      rw [hchain, hok, hrn]
      simp [List.append_assoc]
    · have hbm : (u.utype == "module") = false := by simpa using hum
      have hmn : modNamesU (u :: us) = modNamesU us := by
        simp [modNamesU, List.filter_cons, hbm]
      have hrn : regsU this_obj (u :: us) = regsU this_obj us := by
        simp [regsU, List.filter_cons, hbm]
      rw [hmn] at hnd
      obtain ⟨c1, loc1, hstep, hmp⟩ := pass2Unit_nil_other mis this_obj st loc u hum
      obtain ⟨c2, loc2, hok⟩ := ih
        ⟨st.object_file_for, st.modules_used_by_object, st.externals_used_by_object, c1⟩ loc1
        (by
          intro x hx
          rw [hmp] at hx
          exact hsub x hx)
        hnd
      refine ⟨c2, loc2, ?_⟩
      have hchain : pass2Units [] mis this_obj (st, loc) (u :: us) =
          pass2Units [] mis this_obj (⟨st.object_file_for,
            st.modules_used_by_object, st.externals_used_by_object, c1⟩, loc1) us := by
        simp only [pass2Units, hstep]
      rw [hchain, hok, hrn]

/-- With no external symbols, the second pass over one source file
appends its module registrations to `object_file_for` (the per-object use
maps may also change). -/
theorem pass2Src_nil (mis : List String) (src : Source) (st : Pass2State)
    (hnd : (keysOf st.object_file_for ++ modNamesU src.units).Nodup) :
    ∃ st', pass2Src [] mis st src = .ok st' ∧
      st'.object_file_for = st.object_file_for ++ regsU (objOf src.path) src.units := by
  obtain ⟨c', loc', hok⟩ := pass2Units_nil mis (objOf src.path) src.units st ⟨[], [], []⟩
    (by intro x hx; simp at hx) hnd
  simp only [pass2Src, hok]
  by_cases h1 : loc'.uses_modules ≠ [] <;> by_cases h2 : loc'.uses_externals ≠ [] <;>
    simp [h1, h2]

/-- With no external symbols, the second pass over a whole project
appends, file by file, every module registration to `object_file_for`. -/
theorem pass2_nil (mis : List String) :
    ∀ (srcs : List Source) (st : Pass2State),
      (keysOf st.object_file_for ++ moduleNames srcs).Nodup →
      ∃ st', pass2 [] mis st srcs = .ok st' ∧
        st'.object_file_for = st.object_file_for ++
          srcs.flatMap (fun s => regsU (objOf s.path) s.units) := by
  intro srcs
  induction srcs with
  | nil =>
    intro st _
    exact ⟨st, rfl, by simp⟩
  | cons src ss ih =>
    intro st hnd
    have hmn : moduleNames (src :: ss) = modNamesU src.units ++ moduleNames ss := by
      simp [moduleNames]
    rw [hmn, ← List.append_assoc] at hnd
    have hnd1 : (keysOf st.object_file_for ++ modNamesU src.units).Nodup :=
      hnd.sublist (List.sublist_append_left _ _)
    obtain ⟨st2, hok2, hoff2⟩ := pass2Src_nil mis src st hnd1
    obtain ⟨st3, hok3, hoff3⟩ := ih st2
      (by
        rw [hoff2, keysOf_append, keysOf_regsU]
        exact hnd)
    refine ⟨st3, ?_, ?_⟩
    · simp only [pass2, hok2]
      exact hok3
    · rw [hoff3, hoff2]
      simp [List.append_assoc]

/-- The keys of all module registrations across a project are exactly its
case-folded module names, in order. -/
theorem keysOf_flatMap_regs (srcs : List Source) :
    keysOf (srcs.flatMap (fun s => regsU (objOf s.path) s.units)) = moduleNames srcs := by
  induction srcs with
  | nil => rfl
  | cons src ss ih =>
    simp only [List.flatMap_cons, keysOf_append, keysOf_regsU, ih]
    simp [moduleNames]

end Makemake

/-- C8: with distinct program names and distinct object names, the
resolver's definition pass fails fatally with a `DuplicateModule`
conflict whenever two case-folded module names coincide (in particular
when two different source files define equally named modules), and when
all module names are unique the passes succeed and `object_file_for` maps
every module's case-folded name to the object file of its owning source
file. -/
theorem c8_duplicate_module_registration (srcs : List Makemake.Source)
    (hprog : (Makemake.programNames srcs).Nodup) (hobj : (Makemake.objNames srcs).Nodup) :
    (¬ (Makemake.moduleNames srcs).Nodup →
      ∃ m, Makemake.pass1 Makemake.pass1Init srcs = .error (.duplicateModule m)) ∧
    ((Makemake.moduleNames srcs).Nodup →
      ∃ st1 st2, Makemake.pass1 Makemake.pass1Init srcs = .ok st1 ∧
        Makemake.pass2 [] st1.modules_in_src Makemake.pass2Init srcs = .ok st2 ∧
        ∀ s ∈ srcs, ∀ u ∈ s.units, u.utype = "module" →
          List.lookup (strLower u.name) st2.object_file_for =
            some (Makemake.objOf s.path)) := by
  have hspec := Makemake.pass1_spec srcs Makemake.pass1Init
    (by simpa [Makemake.pass1Init, keysOf] using hprog)
    (by simpa [Makemake.pass1Init] using hobj)
    (by simp [Makemake.pass1Init])
  constructor
  · intro hbad
    exact hspec.2 (by simpa [Makemake.pass1Init] using hbad)
  · intro hgood
    obtain ⟨st1, hok1, _⟩ := hspec.1 (by simpa [Makemake.pass1Init] using hgood)
    obtain ⟨st2, hok2, hoff⟩ := Makemake.pass2_nil st1.modules_in_src srcs Makemake.pass2Init
      (by simpa [Makemake.pass2Init, keysOf] using hgood)
    refine ⟨st1, st2, hok1, hok2, ?_⟩
    intro s hs u hu hmod
    rw [hoff]
    have hoff2 : Makemake.pass2Init.object_file_for ++
        srcs.flatMap (fun s => Makemake.regsU (Makemake.objOf s.path) s.units) =
        srcs.flatMap (fun s => Makemake.regsU (Makemake.objOf s.path) s.units) := by
      simp [Makemake.pass2Init]
    rw [hoff2]
    apply lookup_of_mem_nodup
    · refine List.mem_flatMap.mpr ⟨s, hs, ?_⟩
      refine List.mem_map.mpr ⟨u, ?_, rfl⟩
      exact List.mem_filter.mpr ⟨hu, by simpa using hmod⟩
    · rw [Makemake.keysOf_flatMap_regs]
      exact hgood

/-- Witness for C8 on a concrete two-module project plus the duplicate
half on a project defining module `M` twice in different files. -/
theorem c8_duplicate_module_registration_witness :
    ∃ st1 st2, Makemake.pass1 Makemake.pass1Init
        [⟨"a.f90", [⟨"M_one", "module", [], []⟩]⟩, ⟨"b.f90", [⟨"m_two", "module", [], []⟩]⟩] =
        .ok st1 ∧
      Makemake.pass2 [] st1.modules_in_src Makemake.pass2Init
        [⟨"a.f90", [⟨"M_one", "module", [], []⟩]⟩, ⟨"b.f90", [⟨"m_two", "module", [], []⟩]⟩] =
        .ok st2 ∧
      ∀ s ∈ [(⟨"a.f90", [⟨"M_one", "module", [], []⟩]⟩ : Makemake.Source),
          ⟨"b.f90", [⟨"m_two", "module", [], []⟩]⟩],
        ∀ u ∈ s.units, u.utype = "module" →
          List.lookup (strLower u.name) st2.object_file_for =
            some (Makemake.objOf s.path) :=
  (c8_duplicate_module_registration
    [⟨"a.f90", [⟨"M_one", "module", [], []⟩]⟩, ⟨"b.f90", [⟨"m_two", "module", [], []⟩]⟩]
    (by decide) (by decide)).2 (by decide)
